import Mathlib

/-!
Dual quaternion skinning: the deformer of `usage.cpp`.

A shallow embedding of `dual_quat_deformer` (usage.cpp) and of the part of the
dual quaternion algebra it consumes, followed by theorems about the blend the
deformer computes for a vertex.

Conventions of the embedding.

* `float` is read in two ways. The first definitions read it as exact
  arithmetic over `ℚ`. The definitions prefixed `fl_` repeat the blend with
  every stored product and sum passed through a rounding `rnd : ℚ → ℚ`;
  `round32` is the rounding of IEEE 754 binary32, and with `rnd` the identity
  the two readings coincide. Theorems that depend on the associativity of the
  sum or on products being exact are stated for the rounded reading.
* A `std::vector` is a `List`; every `operator[]` is a checked read, and a read
  outside the vector makes the computation `none`.
* `int` joint ids are `Int`; a vector index `k` is in range when `0 ≤ k` and
  `k` is below the size of the vector.
* The header `dual_quat_cu.hpp` (classes `Vec3`, `Point3`, `Quat_cu`,
  `Dual_quat_cu`) is not among the sources; the operations the deformer calls
  are modelled from the specification and marked as such.
* `transform` and `rotate` normalise by the magnitude of the rotation part. A
  blend whose rotation part is zero has no normalisation (the quotient by a
  zero magnitude is not a number); the embedding returns `none` for it, so an
  output slot holds an `Option Vec3`.
-/

namespace DualQuatSkinning

/-! ## The algebra consumed by the deformer -/

/-- Modelled from the spec: class `Vec3` of dual_quat_cu.hpp (absent from the
sources), a direction with three scalar components. -/
@[ext] structure Vec3 where
  x : ℚ
  y : ℚ
  z : ℚ
deriving DecidableEq

/-- Modelled from the spec: class `Point3` of dual_quat_cu.hpp (absent from the
sources), a position with three scalar components. -/
@[ext] structure Point3 where
  x : ℚ
  y : ℚ
  z : ℚ
deriving DecidableEq

/-- Modelled from the spec: class `Quat_cu` of dual_quat_cu.hpp (absent from the
sources), a rotation quaternion of four scalars, `w` the scalar part and
`(i, j, k)` the vector part. -/
@[ext] structure Quat_cu where
  w : ℚ
  i : ℚ
  j : ℚ
  k : ℚ
deriving DecidableEq

/-- Modelled from the spec: class `Dual_quat_cu` of dual_quat_cu.hpp (absent from
the sources), the 8-scalar rigid transform: a rotation (non-dual) quaternion and
a dual quaternion part. -/
@[ext] structure Dual_quat_cu where
  quat_0 : Quat_cu
  quat_e : Quat_cu
deriving DecidableEq

/-- Modelled from the spec: component-wise sum of two directions. -/
def Vec3.add (a b : Vec3) : Vec3 := ⟨a.x + b.x, a.y + b.y, a.z + b.z⟩

/-- Modelled from the spec: component-wise difference of two directions. -/
def Vec3.sub (a b : Vec3) : Vec3 := ⟨a.x - b.x, a.y - b.y, a.z - b.z⟩

/-- Modelled from the spec: a direction scaled by a scalar. -/
def Vec3.scale (a : Vec3) (s : ℚ) : Vec3 := ⟨a.x * s, a.y * s, a.z * s⟩

/-- Modelled from the spec: cross product of two directions. -/
def Vec3.cross (a b : Vec3) : Vec3 :=
  ⟨a.y * b.z - a.z * b.y, a.z * b.x - a.x * b.z, a.x * b.y - a.y * b.x⟩

/-- Modelled from the spec: dot product of two directions. -/
def Vec3.dot (a b : Vec3) : ℚ := a.x * b.x + a.y * b.y + a.z * b.z

/-- Modelled from the spec: `Point3::to_vec3`, the coordinates of a position. -/
def Point3.to_vec3 (p : Point3) : Vec3 := ⟨p.x, p.y, p.z⟩

/-- Modelled from the spec: a position moved by a direction. -/
def Point3.add_vec (p : Point3) (v : Vec3) : Point3 := ⟨p.x + v.x, p.y + v.y, p.z + v.z⟩

/-- Modelled from the spec: `Quat_cu::dot`, the dot product of two rotation
quaternions seen as 4-vectors. -/
def Quat_cu.dot (a b : Quat_cu) : ℚ := a.w * b.w + a.i * b.i + a.j * b.j + a.k * b.k

/-- Modelled from the spec: component-wise sum of two quaternions. -/
def Quat_cu.add (a b : Quat_cu) : Quat_cu := ⟨a.w + b.w, a.i + b.i, a.j + b.j, a.k + b.k⟩

/-- Modelled from the spec: a quaternion with its four components scaled. -/
def Quat_cu.scale (a : Quat_cu) (s : ℚ) : Quat_cu := ⟨a.w * s, a.i * s, a.j * s, a.k * s⟩

/-- Modelled from the spec: component-wise negation of a quaternion. -/
def Quat_cu.neg (a : Quat_cu) : Quat_cu := ⟨-a.w, -a.i, -a.j, -a.k⟩

/-- Modelled from the spec: the vector part of a quaternion. -/
def Quat_cu.get_vec_part (a : Quat_cu) : Vec3 := ⟨a.i, a.j, a.k⟩

/-- Modelled from the spec: the squared magnitude of a quaternion. -/
def Quat_cu.norm_squared (a : Quat_cu) : ℚ := a.dot a

/-- Modelled from the spec: `Dual_quat_cu::identity`, no rotation and no
translation. -/
def Dual_quat_cu.identity : Dual_quat_cu := ⟨⟨1, 0, 0, 0⟩, ⟨0, 0, 0, 0⟩⟩

/-- Modelled from the spec: `Dual_quat_cu::rotation`, the rotation component. -/
def Dual_quat_cu.rotation (d : Dual_quat_cu) : Quat_cu := d.quat_0

/-- Modelled from the spec: `Dual_quat_cu::operator+`, the component-wise sum,
not renormalised. -/
def Dual_quat_cu.add (a b : Dual_quat_cu) : Dual_quat_cu :=
  ⟨a.quat_0.add b.quat_0, a.quat_e.add b.quat_e⟩

/-- Modelled from the spec: `Dual_quat_cu::operator*(float)`, the uniform scaling
of all 8 components. -/
def Dual_quat_cu.scale (a : Dual_quat_cu) (s : ℚ) : Dual_quat_cu :=
  ⟨a.quat_0.scale s, a.quat_e.scale s⟩

/-- Modelled from the spec: component-wise negation `-dq` of a dual quaternion. -/
def Dual_quat_cu.neg (a : Dual_quat_cu) : Dual_quat_cu := ⟨a.quat_0.neg, a.quat_e.neg⟩

instance : Add Dual_quat_cu := ⟨Dual_quat_cu.add⟩
instance : Neg Dual_quat_cu := ⟨Dual_quat_cu.neg⟩
instance : HMul Dual_quat_cu ℚ Dual_quat_cu := ⟨Dual_quat_cu.scale⟩
instance : Zero Dual_quat_cu := ⟨⟨⟨0, 0, 0, 0⟩, ⟨0, 0, 0, 0⟩⟩⟩

/-- Modelled from the spec: the rotation of a direction by a quaternion of
magnitude one, `v + 2 q_vec × (q_vec × v + w v)`; the caller normalises. Here the
quaternion is given unnormalised together with the factor `1 / |q|²` that the
normalisation contributes. -/
def Quat_cu.rotate_scaled (q : Quat_cu) (inv_n2 : ℚ) (v : Vec3) : Vec3 :=
  let q_vec := q.get_vec_part
  v.add (((q_vec.scale 2).cross ((q_vec.cross v).add (v.scale q.w))).scale inv_n2)

/-- Modelled from the spec: `Dual_quat_cu::rotate` of dual_quat_cu.hpp (absent
from the sources), the application to a direction: rotation only, no
translation, by the rotation part divided by its magnitude. `none` when the
rotation part is zero, where the division by the magnitude is not a number. -/
def Dual_quat_cu.rotate (d : Dual_quat_cu) (v : Vec3) : Option Vec3 :=
  let n2 := d.quat_0.norm_squared
  if n2 = 0 then none else some (d.quat_0.rotate_scaled (1 / n2) v)

/-- Modelled from the spec: `Dual_quat_cu::transform` of dual_quat_cu.hpp (absent
from the sources), the application to a position: both parts are divided by the
magnitude of the rotation part, the position is rotated and then translated by
`2 (w0 ve - we v0 + v0 × ve)`. `none` when the rotation part is zero. -/
def Dual_quat_cu.transform (d : Dual_quat_cu) (p : Point3) : Option Point3 :=
  let n2 := d.quat_0.norm_squared
  if n2 = 0 then none
  else
    let v0 := d.quat_0.get_vec_part
    let ve := d.quat_e.get_vec_part
    let trans :=
      ((((ve.scale d.quat_0.w).sub (v0.scale d.quat_e.w)).add (v0.cross ve)).scale 2).scale (1 / n2)
    let r := d.quat_0.rotate_scaled (1 / n2) p.to_vec3
    some (Point3.add_vec ⟨r.x, r.y, r.z⟩ trans)

/-! ## The deformer -/

/-- A checked `operator[]` with an `int` index: in range when `0 ≤ k` and `k` is
below the size. -/
def vec_at {α : Type} (xs : List α) (k : Int) : Option α :=
  if k < 0 then none else xs[k.toNat]?

/-- Line 57: `(k == -1) ? Dual_quat_cu::identity() : dual_quat[k]`. -/
def resolve_joint (dual_quat : List Dual_quat_cu) (k : Int) : Option Dual_quat_cu :=
  if k = -1 then some Dual_quat_cu.identity else vec_at dual_quat k

/-- Lines 59-60: the hemisphere test, `dq.rotation().dot(q0) < 0.f`. -/
def hemisphere_flip (dq : Dual_quat_cu) (q0 : Quat_cu) : Bool :=
  decide (dq.rotation.dot q0 < 0)

/-- Lines 56, 59-60: the weight after `if(...) w *= -1.f`. -/
def signed_weight (dq : Dual_quat_cu) (q0 : Quat_cu) (w : ℚ) : ℚ :=
  if hemisphere_flip dq q0 then w * (-1) else w

/-- Lines 55-62: one iteration `j` of the inner loop, from the running blend to
the next one. -/
def blend_step (dual_quat : List Dual_quat_cu) (weights_v : List ℚ) (joints_id_v : List Int)
    (q0 : Quat_cu) (dq_blend : Dual_quat_cu) (j : Nat) : Option Dual_quat_cu := do
  let k ← joints_id_v[j]?
  let w ← weights_v[j]?
  let dq ← resolve_joint dual_quat k
  pure (dq_blend + dq * signed_weight dq q0 w)

/-- Modelled from the spec: the default constructor `Dual_quat_cu()` of
dual_quat_cu.hpp (absent from the sources), which line 37 runs; the spec gives
the identity as the blend when the pivot id is -1. -/
def Dual_quat_cu.default_ctor : Dual_quat_cu := Dual_quat_cu.identity

/-- Lines 32-63: the blended dual quaternion of one vertex, from its weights and
joint ids. `none` when a read is out of range. -/
def blend_vertex (dual_quat : List Dual_quat_cu) (weights_v : List ℚ) (joints_id_v : List Int) :
    Option Dual_quat_cu := do
  let nb_joints := weights_v.length
  let init : Int × ℚ × Dual_quat_cu ←
    if nb_joints ≠ 0 then do
      let k0 ← joints_id_v[0]?
      let w0 ← weights_v[0]?
      pure (k0, w0, Dual_quat_cu.default_ctor)
    else
      pure (-1, 0, Dual_quat_cu.identity)
  let k0 : Int := init.1
  let w0 : ℚ := init.2.1
  let dq_blend : Dual_quat_cu ←
    if k0 ≠ -1 then do
      let d ← vec_at dual_quat k0
      pure (d * w0)
    else pure init.2.2
  let pivot := k0
  let q0 ← (vec_at dual_quat pivot).map Dual_quat_cu.rotation
  (List.range' 1 (nb_joints - 1)).foldlM (blend_step dual_quat weights_v joints_id_v q0) dq_blend

/-- Lines 66-69: the two outputs of a vertex from its blend. -/
def apply_blend (dq_blend : Dual_quat_cu) (p : Point3) (n : Vec3) : Option Vec3 × Option Vec3 :=
  ((dq_blend.transform p).map Point3.to_vec3, dq_blend.rotate n)

/-- Lines 32-69: the body of the loop over vertices, the pair written to
`out_verts[v]` and `out_normals[v]`. -/
def deform_vertex (dual_quat : List Dual_quat_cu) (weights_v : List ℚ) (joints_id_v : List Int)
    (p : Point3) (n : Vec3) : Option (Option Vec3 × Option Vec3) :=
  (blend_vertex dual_quat weights_v joints_id_v).map (fun b => apply_blend b p n)

/-- A checked write `xs[v] = a`: in range when `v` is below the size. -/
def vec_set {α : Type} (xs : List α) (v : Nat) (a : α) : Option (List α) :=
  if v < xs.length then some (xs.set v a) else none

/-- Lines 32-69: the body of the loop over vertices at vertex `v`, from the two
output buffers before the iteration to the buffers after it. `joints_id[v]` is
read only when the vertex has influences (line 42 and line 55). -/
def deformer_body (in_verts : List Point3) (in_normals : List Vec3)
    (dual_quat : List Dual_quat_cu) (weights : List (List ℚ)) (joints_id : List (List Int))
    (out : List (Option Vec3) × List (Option Vec3)) (v : Nat) :
    Option (List (Option Vec3) × List (Option Vec3)) := do
  let weights_v ← weights[v]?
  let joints_id_v ← if weights_v.length ≠ 0 then joints_id[v]? else pure []
  let dq_blend ← blend_vertex dual_quat weights_v joints_id_v
  let p ← in_verts[v]?
  let out_verts ← vec_set out.1 v ((dq_blend.transform p).map Point3.to_vec3)
  let n ← in_normals[v]?
  let out_normals ← vec_set out.2 v (dq_blend.rotate n)
  pure (out_verts, out_normals)

/-- The loop body run over the vertices in a given order. -/
def deformer_in_order (order : List Nat) (in_verts : List Point3) (in_normals : List Vec3)
    (out_verts out_normals : List (Option Vec3))
    (dual_quat : List Dual_quat_cu) (weights : List (List ℚ)) (joints_id : List (List Int)) :
    Option (List (Option Vec3) × List (Option Vec3)) :=
  order.foldlM (deformer_body in_verts in_normals dual_quat weights joints_id)
    (out_verts, out_normals)

/-- Lines 22-71: `dual_quat_deformer`, the loop `for(v = 0; v < in_verts.size(); ++v)`.
The result is the final content of `out_verts` and `out_normals`, or `none`
when a read or a write is out of range. -/
def dual_quat_deformer (in_verts : List Point3) (in_normals : List Vec3)
    (out_verts out_normals : List (Option Vec3))
    (dual_quat : List Dual_quat_cu) (weights : List (List ℚ)) (joints_id : List (List Int)) :
    Option (List (Option Vec3) × List (Option Vec3)) :=
  deformer_in_order (List.range in_verts.length) in_verts in_normals out_verts out_normals
    dual_quat weights joints_id

/-- A pure rotation of 180 degrees about the axis `a`, with zero translation:
the rotation quaternion has scalar part `cos 90° = 0` and vector part
`sin 90° · a = a`. -/
def half_turn (a : Vec3) : Dual_quat_cu := ⟨⟨0, a.x, a.y, a.z⟩, ⟨0, 0, 0, 0⟩⟩

/-- The rotation of the direction `n` by 90 degrees about the unit axis `a`:
Rodrigues' formula `n cos θ + (a × n) sin θ + a (a · n) (1 - cos θ)` at
`θ = 90°`. -/
def quarter_turn (a n : Vec3) : Vec3 := (a.cross n).add (a.scale (a.dot n))

/-- Three joints with unit rotations and zero translation: the identity, and
the rotations of 120 degrees about the axes `(1, 1, 1)` and `(-1, -1, -1)`. -/
def three_joints : List Dual_quat_cu :=
  [Dual_quat_cu.identity, ⟨⟨1 / 2, 1 / 2, 1 / 2, 1 / 2⟩, ⟨0, 0, 0, 0⟩⟩,
    ⟨⟨1 / 2, -(1 / 2), -(1 / 2), -(1 / 2)⟩, ⟨0, 0, 0, 0⟩⟩]

/-- The sign `s_j` of the closed form: `-1` when the rotation of `dq` has a
negative dot product with `q0`, `+1` otherwise. -/
def hemisphere_sign (dq : Dual_quat_cu) (q0 : Quat_cu) : ℚ :=
  if dq.rotation.dot q0 < 0 then -1 else 1

/-- The sum `Σ_j dq_j * (s_j * w_j)` over the resolved later influences. -/
def signed_sum (q0 : Quat_cu) : List Dual_quat_cu → List ℚ → Dual_quat_cu
  | d :: ds, w :: ws => d * (hemisphere_sign d q0 * w) + signed_sum q0 ds ws
  | _, _ => 0

/-- One loop iteration on an influence given as a pair (joint id, weight). -/
def pair_step (dual_quat : List Dual_quat_cu) (q0 : Quat_cu) (dq_blend : Dual_quat_cu)
    (kw : Int × ℚ) : Option Dual_quat_cu :=
  (resolve_joint dual_quat kw.1).map fun d => dq_blend + d * signed_weight d q0 kw.2

/-- The preconditions of section 4.1 of the specification: one entry per vertex
in the four per-vertex collections, output buffers of the vertex count, equal
lengths of `weights[v]` and `joints_id[v]`, and every joint id either -1 or a
valid index into `dual_quat`. -/
def deformer_preconditions (in_verts : List Point3) (in_normals : List Vec3)
    (out_verts out_normals : List (Option Vec3))
    (dual_quat : List Dual_quat_cu) (weights : List (List ℚ)) (joints_id : List (List Int)) :
    Prop :=
  in_normals.length = in_verts.length ∧ weights.length = in_verts.length ∧
  joints_id.length = in_verts.length ∧ out_verts.length = in_verts.length ∧
  out_normals.length = in_verts.length ∧
  (∀ v < in_verts.length, (weights.getD v []).length = (joints_id.getD v []).length) ∧
  (∀ ids ∈ joints_id, ∀ k ∈ ids, k = -1 ∨ (0 ≤ k ∧ k < (dual_quat.length : Int)))

/-! ## Rounded arithmetic

The definitions above read `float` as exact arithmetic. The definitions of this
section repeat the blend of a vertex with every arithmetic result stored through
a rounding function `rnd : ℚ → ℚ`; with `rnd` the identity they are the
definitions above. `round32` is the rounding of IEEE 754 binary32, to nearest
with ties to even, on the finite range. -/

/-- The integer nearest to `x`, the even one of the two when `x` is halfway. -/
def round_even (x : ℚ) : ℤ :=
  if x - ⌊x⌋ < 1 / 2 then ⌊x⌋
  else if 1 / 2 < x - ⌊x⌋ then ⌊x⌋ + 1
  else if ⌊x⌋ % 2 = 0 then ⌊x⌋ else ⌊x⌋ + 1

/-- The spacing of the binary32 values around `x ≥ 0`: `2 ^ (e - 23)` for
`2 ^ e ≤ x < 2 ^ (e + 1)`, with `e` not below the least normal exponent -126. -/
def ulp32 (x : ℚ) : ℚ := (2 : ℚ) ^ (max (Int.log 2 x) (-126) - 23)

/-- The largest finite binary32 value. -/
def max32 : ℚ := (2 ^ 24 - 1) * 2 ^ 104

/-- The binary32 value nearest to `x ≥ 0`, ties to even. A result that reaches
`2 ^ 128`, which binary32 stores as an infinity, has no value in `ℚ`: it is
replaced by `max32`, so that it differs from the exact `x`. -/
def round32_nonneg (x : ℚ) : ℚ :=
  if (2 : ℚ) ^ 128 ≤ (round_even (x / ulp32 x) : ℚ) * ulp32 x then max32
  else (round_even (x / ulp32 x) : ℚ) * ulp32 x

/-- The binary32 value nearest to `x`, ties to even; the format is
sign-magnitude, so a negative `x` is rounded as `-x` is. -/
def round32 (x : ℚ) : ℚ := if 0 ≤ x then round32_nonneg x else -round32_nonneg (-x)

/-- The least positive binary32 value, the subnormal `2 ^ (-149)`. -/
def least32 : ℚ := (2 : ℚ) ^ (-149 : ℤ)

/-- The four scalars of a quaternion stored through `rnd`. -/
def Quat_cu.fl_map (rnd : ℚ → ℚ) (q : Quat_cu) : Quat_cu := ⟨rnd q.w, rnd q.i, rnd q.j, rnd q.k⟩

/-- The eight scalars of a dual quaternion stored through `rnd`. -/
def Dual_quat_cu.fl_map (rnd : ℚ → ℚ) (d : Dual_quat_cu) : Dual_quat_cu :=
  ⟨d.quat_0.fl_map rnd, d.quat_e.fl_map rnd⟩

/-- Modelled from the spec: `Dual_quat_cu::operator*(float)` with each of the
eight products rounded. -/
def Dual_quat_cu.fl_scale (rnd : ℚ → ℚ) (d : Dual_quat_cu) (s : ℚ) : Dual_quat_cu :=
  (d * s).fl_map rnd

/-- Modelled from the spec: `Dual_quat_cu::operator+` with each of the eight sums
rounded. -/
def Dual_quat_cu.fl_add (rnd : ℚ → ℚ) (a b : Dual_quat_cu) : Dual_quat_cu :=
  (a + b).fl_map rnd

/-- Modelled from the spec: `Quat_cu::dot` with its four products and three
sums, taken from left to right, each rounded. -/
def Quat_cu.fl_dot (rnd : ℚ → ℚ) (a b : Quat_cu) : ℚ :=
  rnd (rnd (rnd (rnd (a.w * b.w) + rnd (a.i * b.i)) + rnd (a.j * b.j)) + rnd (a.k * b.k))

/-- Lines 59-60 in rounded arithmetic: the hemisphere test on the rounded dot
product. -/
def fl_hemisphere_flip (rnd : ℚ → ℚ) (dq : Dual_quat_cu) (q0 : Quat_cu) : Bool :=
  decide (dq.rotation.fl_dot rnd q0 < 0)

/-- Lines 56, 59-60 in rounded arithmetic: the weight after `if(...) w *= -1.f`;
the product of a floating point value with `-1.f` is exact. -/
def fl_signed_weight (rnd : ℚ → ℚ) (dq : Dual_quat_cu) (q0 : Quat_cu) (w : ℚ) : ℚ :=
  if fl_hemisphere_flip rnd dq q0 then w * (-1) else w

/-- Lines 55-62 in rounded arithmetic: one iteration `j` of the inner loop. -/
def fl_blend_step (rnd : ℚ → ℚ) (dual_quat : List Dual_quat_cu) (weights_v : List ℚ)
    (joints_id_v : List Int) (q0 : Quat_cu) (dq_blend : Dual_quat_cu) (j : Nat) :
    Option Dual_quat_cu := do
  let k ← joints_id_v[j]?
  let w ← weights_v[j]?
  let dq ← resolve_joint dual_quat k
  pure (dq_blend.fl_add rnd (dq.fl_scale rnd (fl_signed_weight rnd dq q0 w)))

/-- Lines 32-63 in rounded arithmetic: the blended dual quaternion of one
vertex. -/
def fl_blend_vertex (rnd : ℚ → ℚ) (dual_quat : List Dual_quat_cu) (weights_v : List ℚ)
    (joints_id_v : List Int) : Option Dual_quat_cu := do
  let nb_joints := weights_v.length
  let init : Int × ℚ × Dual_quat_cu ←
    if nb_joints ≠ 0 then do
      let k0 ← joints_id_v[0]?
      let w0 ← weights_v[0]?
      pure (k0, w0, Dual_quat_cu.default_ctor)
    else
      pure (-1, 0, Dual_quat_cu.identity)
  let k0 : Int := init.1
  let w0 : ℚ := init.2.1
  let dq_blend : Dual_quat_cu ←
    if k0 ≠ -1 then do
      let d ← vec_at dual_quat k0
      pure (d.fl_scale rnd w0)
    else pure init.2.2
  let pivot := k0
  let q0 ← (vec_at dual_quat pivot).map Dual_quat_cu.rotation
  (List.range' 1 (nb_joints - 1)).foldlM
    (fl_blend_step rnd dual_quat weights_v joints_id_v q0) dq_blend

/-- Lines 32-69 with the blend in rounded arithmetic; the blend is applied by
the `transform` and `rotate` modelled from the spec. -/
def fl_deform_vertex (rnd : ℚ → ℚ) (dual_quat : List Dual_quat_cu) (weights_v : List ℚ)
    (joints_id_v : List Int) (p : Point3) (n : Vec3) : Option (Option Vec3 × Option Vec3) :=
  (fl_blend_vertex rnd dual_quat weights_v joints_id_v).map (fun b => apply_blend b p n)

/-- One loop iteration in rounded arithmetic on an influence given as a pair
(joint id, weight). -/
def fl_pair_step (rnd : ℚ → ℚ) (dual_quat : List Dual_quat_cu) (q0 : Quat_cu)
    (dq_blend : Dual_quat_cu) (kw : Int × ℚ) : Option Dual_quat_cu :=
  (resolve_joint dual_quat kw.1).map fun d =>
    dq_blend.fl_add rnd (d.fl_scale rnd (fl_signed_weight rnd d q0 kw.2))

/-- The dual quaternion `X`, negated when the flag is set. -/
def flip_sign (f : Bool) (X : Dual_quat_cu) : Dual_quat_cu := if f then -X else X

/-- The iterations `js` of the inner loop, started from `acc`, are free of
rounding error: each iteration stores the exact result of the iteration. -/
def fl_exact_steps (rnd : ℚ → ℚ) (dual_quat : List Dual_quat_cu) (weights_v : List ℚ)
    (joints_id_v : List Int) (q0 : Quat_cu) : Dual_quat_cu → List Nat → Prop
  | _, [] => True
  | acc, j :: js =>
    fl_blend_step rnd dual_quat weights_v joints_id_v q0 acc j =
      blend_step dual_quat weights_v joints_id_v q0 acc j ∧
    ∀ B, blend_step dual_quat weights_v joints_id_v q0 acc j = some B →
      fl_exact_steps rnd dual_quat weights_v joints_id_v q0 B js

/-- The seed `dual_quat[k0] * w0` and the iterations `j = 1, ..., m` of the
inner loop of a vertex are free of rounding error. -/
def fl_exact_run (rnd : ℚ → ℚ) (dual_quat : List Dual_quat_cu) (weights_v : List ℚ)
    (joints_id_v : List Int) (m : Nat) : Prop :=
  ∀ k0 w0 P, joints_id_v[0]? = some k0 → weights_v[0]? = some w0 →
    vec_at dual_quat k0 = some P →
    P.fl_scale rnd w0 = P * w0 ∧
    fl_exact_steps rnd dual_quat weights_v joints_id_v P.rotation (P * w0) (List.range' 1 m)

/-! ## Component form of the algebra -/

theorem Dual_quat_cu.add_def (a b : Dual_quat_cu) :
    a + b = ⟨⟨a.quat_0.w + b.quat_0.w, a.quat_0.i + b.quat_0.i, a.quat_0.j + b.quat_0.j,
              a.quat_0.k + b.quat_0.k⟩,
             ⟨a.quat_e.w + b.quat_e.w, a.quat_e.i + b.quat_e.i, a.quat_e.j + b.quat_e.j,
              a.quat_e.k + b.quat_e.k⟩⟩ := rfl

theorem Dual_quat_cu.scale_def (a : Dual_quat_cu) (s : ℚ) :
    a * s = ⟨⟨a.quat_0.w * s, a.quat_0.i * s, a.quat_0.j * s, a.quat_0.k * s⟩,
             ⟨a.quat_e.w * s, a.quat_e.i * s, a.quat_e.j * s, a.quat_e.k * s⟩⟩ := rfl

theorem Dual_quat_cu.neg_def (a : Dual_quat_cu) :
    -a = ⟨⟨-a.quat_0.w, -a.quat_0.i, -a.quat_0.j, -a.quat_0.k⟩,
          ⟨-a.quat_e.w, -a.quat_e.i, -a.quat_e.j, -a.quat_e.k⟩⟩ := rfl

theorem Dual_quat_cu.zero_def :
    (0 : Dual_quat_cu) = ⟨⟨0, 0, 0, 0⟩, ⟨0, 0, 0, 0⟩⟩ := rfl

theorem Dual_quat_cu.add_comm (a b : Dual_quat_cu) : a + b = b + a := by
  simp only [Dual_quat_cu.add_def]
  ext <;> simp only [] <;> ring

theorem Dual_quat_cu.add_assoc (a b c : Dual_quat_cu) : a + b + c = a + (b + c) := by
  simp only [Dual_quat_cu.add_def]
  ext <;> simp only [] <;> ring

theorem Dual_quat_cu.add_right_comm (a b c : Dual_quat_cu) : a + b + c = a + c + b := by
  simp only [Dual_quat_cu.add_def]
  ext <;> simp only [] <;> ring

theorem Dual_quat_cu.zero_add (a : Dual_quat_cu) : 0 + a = a := by
  simp only [Dual_quat_cu.add_def, Dual_quat_cu.zero_def]
  ext <;> simp only [] <;> ring

theorem Dual_quat_cu.add_zero (a : Dual_quat_cu) : a + 0 = a := by
  simp only [Dual_quat_cu.add_def, Dual_quat_cu.zero_def]
  ext <;> simp only [] <;> ring

theorem Dual_quat_cu.neg_neg (a : Dual_quat_cu) : - -a = a := by
  simp only [Dual_quat_cu.neg_def]
  ext <;> simp only [] <;> ring

theorem Dual_quat_cu.neg_add (a b : Dual_quat_cu) : -(a + b) = -a + -b := by
  simp only [Dual_quat_cu.add_def, Dual_quat_cu.neg_def]
  ext <;> simp only [] <;> ring

theorem Dual_quat_cu.scale_neg (a : Dual_quat_cu) (s : ℚ) : a * (-s) = -(a * s) := by
  simp only [Dual_quat_cu.scale_def, Dual_quat_cu.neg_def]
  ext <;> simp only [] <;> ring

theorem Dual_quat_cu.scale_one (a : Dual_quat_cu) : a * (1 : ℚ) = a := by
  simp only [Dual_quat_cu.scale_def]
  ext <;> simp only [] <;> ring

theorem Dual_quat_cu.scale_scale (a : Dual_quat_cu) (s t : ℚ) : a * s * t = a * (s * t) := by
  simp only [Dual_quat_cu.scale_def]
  ext <;> simp only [] <;> ring

theorem Dual_quat_cu.scale_add_scale (a : Dual_quat_cu) (s t : ℚ) :
    a * s + a * t = a * (s + t) := by
  simp only [Dual_quat_cu.scale_def, Dual_quat_cu.add_def]
  ext <;> simp only [] <;> ring

theorem Dual_quat_cu.rotation_neg_dot (a : Dual_quat_cu) (q : Quat_cu) :
    (-a).rotation.dot q = -(a.rotation.dot q) := by
  simp only [Dual_quat_cu.neg_def, Dual_quat_cu.rotation, Quat_cu.dot]
  ring

theorem Quat_cu.dot_self_nonneg (q : Quat_cu) : 0 ≤ q.dot q := by
  simp only [Quat_cu.dot]
  nlinarith [mul_self_nonneg q.w, mul_self_nonneg q.i, mul_self_nonneg q.j, mul_self_nonneg q.k]

theorem Dual_quat_cu.rotate_neg (d : Dual_quat_cu) (v : Vec3) : (-d).rotate v = d.rotate v := by
  have h : (-d).quat_0.norm_squared = d.quat_0.norm_squared := by
    simp only [Dual_quat_cu.neg_def, Quat_cu.norm_squared, Quat_cu.dot]; ring
  simp only [Dual_quat_cu.rotate, h]
  by_cases h0 : d.quat_0.norm_squared = 0
  · simp [h0]
  · simp only [h0, if_false, Option.some.injEq]
    simp only [Dual_quat_cu.neg_def, Quat_cu.rotate_scaled, Quat_cu.get_vec_part, Vec3.add,
      Vec3.scale, Vec3.cross]
    ext <;> simp only [] <;> ring

theorem Dual_quat_cu.transform_neg (d : Dual_quat_cu) (p : Point3) :
    (-d).transform p = d.transform p := by
  have h : (-d).quat_0.norm_squared = d.quat_0.norm_squared := by
    simp only [Dual_quat_cu.neg_def, Quat_cu.norm_squared, Quat_cu.dot]; ring
  simp only [Dual_quat_cu.transform, h]
  by_cases h0 : d.quat_0.norm_squared = 0
  · simp [h0]
  · simp only [h0, if_false, Option.some.injEq]
    simp only [Dual_quat_cu.neg_def, Quat_cu.rotate_scaled, Quat_cu.get_vec_part, Vec3.add,
      Vec3.sub, Vec3.scale, Vec3.cross, Point3.add_vec, Point3.to_vec3]
    ext <;> simp only [] <;> ring

theorem Dual_quat_cu.norm_squared_scale (d : Dual_quat_cu) (s : ℚ) :
    (d * s).quat_0.norm_squared = d.quat_0.norm_squared * (s * s) := by
  simp only [Dual_quat_cu.scale_def, Quat_cu.norm_squared, Quat_cu.dot]; ring

theorem Dual_quat_cu.rotate_scale (d : Dual_quat_cu) (s : ℚ) (hs : s ≠ 0) (v : Vec3) :
    (d * s).rotate v = d.rotate v := by
  simp only [Dual_quat_cu.rotate, Dual_quat_cu.norm_squared_scale]
  by_cases h0 : d.quat_0.norm_squared = 0
  · simp [h0]
  · have hss : d.quat_0.norm_squared * (s * s) ≠ 0 := mul_ne_zero h0 (mul_ne_zero hs hs)
    simp only [h0, hss, if_false, Option.some.injEq]
    simp only [Dual_quat_cu.scale_def, Quat_cu.rotate_scaled, Quat_cu.get_vec_part, Vec3.add,
      Vec3.scale, Vec3.cross]
    ext <;> simp only [] <;> field_simp <;> ring

theorem Dual_quat_cu.transform_scale (d : Dual_quat_cu) (s : ℚ) (hs : s ≠ 0) (p : Point3) :
    (d * s).transform p = d.transform p := by
  simp only [Dual_quat_cu.transform, Dual_quat_cu.norm_squared_scale]
  by_cases h0 : d.quat_0.norm_squared = 0
  · simp [h0]
  · have hss : d.quat_0.norm_squared * (s * s) ≠ 0 := mul_ne_zero h0 (mul_ne_zero hs hs)
    simp only [h0, hss, if_false, Option.some.injEq]
    simp only [Dual_quat_cu.scale_def, Quat_cu.rotate_scaled, Quat_cu.get_vec_part, Vec3.add,
      Vec3.sub, Vec3.scale, Vec3.cross, Point3.add_vec, Point3.to_vec3]
    ext <;> simp only [] <;> field_simp <;> ring

theorem apply_blend_neg (b : Dual_quat_cu) (p : Point3) (n : Vec3) :
    apply_blend (-b) p n = apply_blend b p n := by
  simp only [apply_blend, Dual_quat_cu.transform_neg, Dual_quat_cu.rotate_neg]

theorem apply_blend_scale (b : Dual_quat_cu) (s : ℚ) (hs : s ≠ 0) (p : Point3) (n : Vec3) :
    apply_blend (b * s) p n = apply_blend b p n := by
  simp only [apply_blend, Dual_quat_cu.transform_scale b s hs, Dual_quat_cu.rotate_scale b s hs]

/-! ## The hemisphere test -/

theorem signed_weight_eq (d : Dual_quat_cu) (q0 : Quat_cu) (w : ℚ) :
    signed_weight d q0 w = if d.rotation.dot q0 < 0 then -w else w := by
  simp only [signed_weight, hemisphere_flip, decide_eq_true_eq, mul_neg, mul_one]

theorem signed_weight_self (d : Dual_quat_cu) (w : ℚ) : signed_weight d d.rotation w = w := by
  rw [signed_weight_eq, if_neg (not_lt.mpr (Quat_cu.dot_self_nonneg _))]

theorem vec_at_neg_one {α : Type} (xs : List α) : vec_at xs (-1) = none := by
  simp [vec_at]

theorem blend_vertex_nil (dual_quat : List Dual_quat_cu) (joints_id_v : List Int) :
    blend_vertex dual_quat [] joints_id_v = none := by
  simp [blend_vertex, vec_at]

theorem blend_vertex_cons (dual_quat : List Dual_quat_cu) (w0 : ℚ) (tws : List ℚ)
    (joints_id_v : List Int) :
    blend_vertex dual_quat (w0 :: tws) joints_id_v =
      (joints_id_v[0]?).bind fun k0 =>
        (vec_at dual_quat k0).bind fun P =>
          (List.range' 1 tws.length).foldlM
            (blend_step dual_quat (w0 :: tws) joints_id_v P.rotation) (P * w0) := by
  cases h : joints_id_v[0]? with
  | none => simp [blend_vertex, h]
  | some k0 =>
    by_cases hk : k0 = -1
    · subst hk
      simp [blend_vertex, h, vec_at]
    · cases hP : vec_at dual_quat k0 with
      | none => simp [blend_vertex, h, hk, hP]
      | some P => simp [blend_vertex, h, hk, hP]

theorem vec_at_some_ne {α : Type} (xs : List α) (k : Int) (a : α) (h : vec_at xs k = some a) :
    k ≠ -1 := by
  intro hk
  rw [hk, vec_at_neg_one] at h
  exact Option.noConfusion h

theorem resolve_joint_of_vec_at (dual_quat : List Dual_quat_cu) (k : Int) (d : Dual_quat_cu)
    (h : vec_at dual_quat k = some d) : resolve_joint dual_quat k = some d := by
  simp only [resolve_joint, if_neg (vec_at_some_ne _ _ _ h), h]

/-! ## Single influence, zero influences -/

/-- C3. A vertex whose influence list is the single pair `(J, 1)`, with `J` a
valid index into `dual_quat`, is blended to `dual_quat[J]` exactly, and its
outputs are `dual_quat[J].transform(in_verts[v])` and
`dual_quat[J].rotate(in_normals[v])`. -/
theorem single_influence_identity (dual_quat : List Dual_quat_cu) (J : Int) (T : Dual_quat_cu)
    (p : Point3) (n : Vec3) (hJ : vec_at dual_quat J = some T) :
    blend_vertex dual_quat [1] [J] = some T ∧
    deform_vertex dual_quat [1] [J] p n =
      some ((T.transform p).map Point3.to_vec3, T.rotate n) := by
  have hb : blend_vertex dual_quat [1] [J] = some T := by
    rw [blend_vertex_cons]
    simp [hJ, Dual_quat_cu.scale_one]
  exact ⟨hb, by simp only [deform_vertex, hb, Option.map_some', apply_blend]⟩

theorem single_influence_identity_witness :
    vec_at [Dual_quat_cu.identity, half_turn ⟨1, 0, 0⟩] 1 = some (half_turn ⟨1, 0, 0⟩) ∧
    (blend_vertex [Dual_quat_cu.identity, half_turn ⟨1, 0, 0⟩] [1] [1]
        = some (half_turn ⟨1, 0, 0⟩) ∧
      deform_vertex [Dual_quat_cu.identity, half_turn ⟨1, 0, 0⟩] [1] [1] ⟨1, 2, 3⟩ ⟨0, 1, 0⟩ =
        some (((half_turn ⟨1, 0, 0⟩).transform ⟨1, 2, 3⟩).map Point3.to_vec3,
              (half_turn ⟨1, 0, 0⟩).rotate ⟨0, 1, 0⟩)) :=
  ⟨by simp [vec_at], single_influence_identity _ 1 _ ⟨1, 2, 3⟩ ⟨0, 1, 0⟩ (by simp [vec_at])⟩

/-- C4. For a vertex with no influence the code reads `dual_quat[pivot]` with
`pivot = -1` (line 51) before it reaches the transform: the read is out of
range whatever `dual_quat` is, so no output is produced, although the blend was
set to the identity (line 45), whose application would give back the inputs. -/
theorem zero_influence_reads_out_of_range (dual_quat : List Dual_quat_cu) (p : Point3)
    (n : Vec3) :
    vec_at dual_quat (-1) = none ∧
    deform_vertex dual_quat [] [] p n = none ∧
    apply_blend Dual_quat_cu.identity p n = (some p.to_vec3, some n) := by
  refine ⟨vec_at_neg_one _, ?_, ?_⟩
  · simp only [deform_vertex, blend_vertex_nil, Option.map_none']
  · simp only [apply_blend, Dual_quat_cu.transform, Dual_quat_cu.rotate, Dual_quat_cu.identity,
      Quat_cu.norm_squared, Quat_cu.dot, Quat_cu.rotate_scaled, Quat_cu.get_vec_part, Vec3.add,
      Vec3.sub, Vec3.scale, Vec3.cross, Point3.add_vec, Point3.to_vec3]
    norm_num [Point3.to_vec3]

/-! ## Two joints holding the same transform -/

theorem blend_vertex_two (dual_quat : List Dual_quat_cu) (w0 w1 : ℚ) (k0 k1 : Int)
    (P d : Dual_quat_cu) (hP : vec_at dual_quat k0 = some P)
    (hd : resolve_joint dual_quat k1 = some d) :
    blend_vertex dual_quat [w0, w1] [k0, k1] =
      some (P * w0 + d * signed_weight d P.rotation w1) := by
  rw [blend_vertex_cons]
  simp [hP, blend_step, hd]

/-- In exact arithmetic, two joints holding the same transform `T`, both with
the same non-zero weight `w`: the blend is `T * (w + w)` and the outputs are
`T.transform(in_verts[v])` and `T.rotate(in_normals[v])`. -/
theorem two_joint_identical_blend_exact (dual_quat : List Dual_quat_cu) (a b : Int)
    (T : Dual_quat_cu) (w : ℚ) (p : Point3) (n : Vec3)
    (ha : vec_at dual_quat a = some T) (hb : vec_at dual_quat b = some T) (hw : w ≠ 0) :
    blend_vertex dual_quat [w, w] [a, b] = some (T * (w + w)) ∧
    deform_vertex dual_quat [w, w] [a, b] p n =
      some ((T.transform p).map Point3.to_vec3, T.rotate n) := by
  have hblend : blend_vertex dual_quat [w, w] [a, b] = some (T * (w + w)) := by
    rw [blend_vertex_two dual_quat w w a b T T ha (resolve_joint_of_vec_at _ _ _ hb),
      signed_weight_self, Dual_quat_cu.scale_add_scale]
  refine ⟨hblend, ?_⟩
  have hww : w + w ≠ 0 := by
    intro h
    apply hw
    linarith
  rw [deform_vertex, hblend, Option.map_some', apply_blend_scale T (w + w) hww, apply_blend]

/-! ## The scenario: identity and a half turn, weights one half each -/

theorem signed_weight_half_turn (a : Vec3) (w : ℚ) :
    signed_weight (half_turn a) Dual_quat_cu.identity.rotation w = w := by
  simp [signed_weight_eq, half_turn, Dual_quat_cu.identity, Dual_quat_cu.rotation, Quat_cu.dot]

theorem blend_vertex_scenario (a : Vec3) :
    blend_vertex [Dual_quat_cu.identity, half_turn a] [1 / 2, 1 / 2] [0, 1] =
      some ⟨⟨1 / 2, a.x / 2, a.y / 2, a.z / 2⟩, ⟨0, 0, 0, 0⟩⟩ := by
  rw [blend_vertex_two _ _ _ 0 1 Dual_quat_cu.identity (half_turn a) (by simp [vec_at])
    (by simp [resolve_joint, vec_at]), signed_weight_half_turn]
  simp only [Dual_quat_cu.add_def, Dual_quat_cu.scale_def, Dual_quat_cu.identity, half_turn]
  norm_num
  refine ⟨?_, ?_, ?_⟩ <;> ring

/-- C7, counterexample. With joint 0 the identity and joint 1 the half turn
about the x axis, the dot product of the two rotations is exactly 0, so the test
`dot < 0` is false: the weight of the second influence is accumulated as it is,
not negated. -/
theorem scenario_flip_does_not_trigger :
    ¬ (hemisphere_flip (half_turn ⟨1, 0, 0⟩) Dual_quat_cu.identity.rotation = true) ∧
    signed_weight (half_turn ⟨1, 0, 0⟩) Dual_quat_cu.identity.rotation (1 / 2) ≠ -(1 / 2) := by
  constructor
  · simp [hemisphere_flip, half_turn, Dual_quat_cu.identity, Dual_quat_cu.rotation, Quat_cu.dot]
  · rw [signed_weight_half_turn]
    norm_num

/-- C7, amended. With joint 0 the identity and joint 1 a half turn about any
axis `a`, in either sign, the dot product of the two rotations is 0 and the
hemisphere test does not trigger: the second influence keeps its weight 1/2 and
the blend is `identity * 1/2 + dual_quat[1] * 1/2`. -/
theorem scenario_no_flip (a : Vec3) :
    (half_turn a).rotation.dot Dual_quat_cu.identity.rotation = 0 ∧
    hemisphere_flip (half_turn a) Dual_quat_cu.identity.rotation = false ∧
    hemisphere_flip (-(half_turn a)) Dual_quat_cu.identity.rotation = false ∧
    signed_weight (half_turn a) Dual_quat_cu.identity.rotation (1 / 2) = 1 / 2 ∧
    blend_vertex [Dual_quat_cu.identity, half_turn a] [1 / 2, 1 / 2] [0, 1] =
      some (Dual_quat_cu.identity * (1 / 2 : ℚ) + half_turn a * (1 / 2 : ℚ)) ∧
    blend_vertex [Dual_quat_cu.identity, -(half_turn a)] [1 / 2, 1 / 2] [0, 1] =
      some (Dual_quat_cu.identity * (1 / 2 : ℚ) + (-(half_turn a)) * (1 / 2 : ℚ)) := by
  have hdot : (half_turn a).rotation.dot Dual_quat_cu.identity.rotation = 0 := by
    simp [half_turn, Dual_quat_cu.identity, Dual_quat_cu.rotation, Quat_cu.dot]
  have hneg : signed_weight (-(half_turn a)) Dual_quat_cu.identity.rotation (1 / 2) = 1 / 2 := by
    rw [signed_weight_eq, Dual_quat_cu.rotation_neg_dot, hdot]
    norm_num
  refine ⟨hdot, ?_, ?_, signed_weight_half_turn a _, ?_, ?_⟩
  · simp [hemisphere_flip, hdot]
  · simp [hemisphere_flip, Dual_quat_cu.rotation_neg_dot, hdot]
  · rw [blend_vertex_two _ _ _ 0 1 Dual_quat_cu.identity (half_turn a) (by simp [vec_at])
      (by simp [resolve_joint, vec_at]), signed_weight_half_turn]
  · rw [blend_vertex_two _ _ _ 0 1 Dual_quat_cu.identity (-(half_turn a)) (by simp [vec_at])
      (by simp [resolve_joint, vec_at]), hneg]

/-- C8. With joint 0 the identity and joint 1 the half turn about a unit axis
`a`, weights 1/2 each: the blend has a rotation part of squared norm 1/2 that is
a positive multiple of the unit quaternion `(cos 45°, sin 45° · a)` of the
90-degree rotation about `a`, its dual part is zero, and the output normal is
the input normal rotated by 90 degrees about `a`. -/
theorem scenario_halfway_rotation (a : Vec3) (ha : a.dot a = 1) (p : Point3) (n : Vec3) :
    ∃ B : Dual_quat_cu,
      blend_vertex [Dual_quat_cu.identity, half_turn a] [1 / 2, 1 / 2] [0, 1] = some B ∧
      B.rotation.norm_squared = 1 / 2 ∧
      B.quat_e = ⟨0, 0, 0, 0⟩ ∧
      (∃ c : ℝ, 0 < c ∧
        (B.rotation.w : ℝ) = c * Real.cos (Real.pi / 4) ∧
        (B.rotation.i : ℝ) = c * (Real.sin (Real.pi / 4) * (a.x : ℝ)) ∧
        (B.rotation.j : ℝ) = c * (Real.sin (Real.pi / 4) * (a.y : ℝ)) ∧
        (B.rotation.k : ℝ) = c * (Real.sin (Real.pi / 4) * (a.z : ℝ))) ∧
      (deform_vertex [Dual_quat_cu.identity, half_turn a] [1 / 2, 1 / 2] [0, 1] p n).map Prod.snd
        = some (some (quarter_turn a n)) := by
  have hu : a.x * a.x + a.y * a.y + a.z * a.z = 1 := ha
  refine ⟨⟨⟨1 / 2, a.x / 2, a.y / 2, a.z / 2⟩, ⟨0, 0, 0, 0⟩⟩, blend_vertex_scenario a, ?_, rfl,
    ?_, ?_⟩
  · simp only [Dual_quat_cu.rotation, Quat_cu.norm_squared, Quat_cu.dot]
    linear_combination (1 / 4) * hu
  · have h2 : Real.sqrt 2 * Real.sqrt 2 = 2 := Real.mul_self_sqrt (by norm_num)
    refine ⟨Real.sqrt 2 / 2, by positivity, ?_, ?_, ?_, ?_⟩
    · rw [Real.cos_pi_div_four]
      simp only [Dual_quat_cu.rotation]
      push_cast
      linear_combination (-(1 / 4 : ℝ)) * h2
    · rw [Real.sin_pi_div_four]
      simp only [Dual_quat_cu.rotation]
      push_cast
      linear_combination (-(1 / 4 : ℝ)) * (a.x : ℝ) * h2
    · rw [Real.sin_pi_div_four]
      simp only [Dual_quat_cu.rotation]
      push_cast
      linear_combination (-(1 / 4 : ℝ)) * (a.y : ℝ) * h2
    · rw [Real.sin_pi_div_four]
      simp only [Dual_quat_cu.rotation]
      push_cast
      linear_combination (-(1 / 4 : ℝ)) * (a.z : ℝ) * h2
  · have hn2 : (1 / 2 : ℚ) * (1 / 2) + a.x / 2 * (a.x / 2) + a.y / 2 * (a.y / 2)
        + a.z / 2 * (a.z / 2) = 1 / 2 := by
      linear_combination (1 / 4) * hu
    rw [deform_vertex, blend_vertex_scenario]
    simp only [Option.map_some', apply_blend, Dual_quat_cu.rotate, Quat_cu.norm_squared,
      Quat_cu.dot, hn2]
    norm_num
    simp only [quarter_turn, Quat_cu.rotate_scaled, Quat_cu.get_vec_part, Vec3.add, Vec3.scale,
      Vec3.cross, Vec3.dot]
    ext
    · simp only []
      linear_combination (-n.x) * hu
    · simp only []
      linear_combination (-n.y) * hu
    · simp only []
      linear_combination (-n.z) * hu

theorem scenario_halfway_rotation_witness :
    (⟨3 / 5, 4 / 5, 0⟩ : Vec3).dot ⟨3 / 5, 4 / 5, 0⟩ = 1 ∧
    ∃ B : Dual_quat_cu,
      blend_vertex [Dual_quat_cu.identity, half_turn ⟨3 / 5, 4 / 5, 0⟩] [1 / 2, 1 / 2] [0, 1]
        = some B ∧
      B.rotation.norm_squared = 1 / 2 ∧
      B.quat_e = ⟨0, 0, 0, 0⟩ ∧
      (∃ c : ℝ, 0 < c ∧
        (B.rotation.w : ℝ) = c * Real.cos (Real.pi / 4) ∧
        (B.rotation.i : ℝ) = c * (Real.sin (Real.pi / 4) * (((3 / 5 : ℚ)) : ℝ)) ∧
        (B.rotation.j : ℝ) = c * (Real.sin (Real.pi / 4) * (((4 / 5 : ℚ)) : ℝ)) ∧
        (B.rotation.k : ℝ) = c * (Real.sin (Real.pi / 4) * (((0 : ℚ)) : ℝ))) ∧
      (deform_vertex [Dual_quat_cu.identity, half_turn ⟨3 / 5, 4 / 5, 0⟩] [1 / 2, 1 / 2] [0, 1]
          ⟨1, 2, 3⟩ ⟨0, 0, 1⟩).map Prod.snd
        = some (some (quarter_turn ⟨3 / 5, 4 / 5, 0⟩ ⟨0, 0, 1⟩)) :=
  ⟨by norm_num [Vec3.dot],
    scenario_halfway_rotation ⟨3 / 5, 4 / 5, 0⟩ (by norm_num [Vec3.dot]) ⟨1, 2, 3⟩ ⟨0, 0, 1⟩⟩

/-! ## The loop over vertices -/

/-- C6. Two inputs that satisfy the preconditions, one vertex each: a vertex
with zero influences, and a vertex whose first joint id is -1. In both the read
`dual_quat[pivot]` of line 51 has `pivot = -1`, which is out of range, and the
deformer fails. -/
theorem pivot_read_out_of_range :
    deformer_preconditions [⟨1, 2, 3⟩] [⟨0, 0, 1⟩] [none] [none] [Dual_quat_cu.identity]
      [[]] [[]] ∧
    dual_quat_deformer [⟨1, 2, 3⟩] [⟨0, 0, 1⟩] [none] [none] [Dual_quat_cu.identity]
      [[]] [[]] = none ∧
    deformer_preconditions [⟨1, 2, 3⟩] [⟨0, 0, 1⟩] [none] [none] [Dual_quat_cu.identity]
      [[1]] [[-1]] ∧
    dual_quat_deformer [⟨1, 2, 3⟩] [⟨0, 0, 1⟩] [none] [none] [Dual_quat_cu.identity]
      [[1]] [[-1]] = none ∧
    vec_at [Dual_quat_cu.identity] (-1) = none := by
  have hr : List.range 1 = [0] := rfl
  refine ⟨?_, ?_, ?_, ?_, vec_at_neg_one _⟩
  · simp [deformer_preconditions]
  · simp [dual_quat_deformer, deformer_in_order, hr, deformer_body, blend_vertex_nil]
  · simp [deformer_preconditions]
  · simp [dual_quat_deformer, deformer_in_order, hr, deformer_body, blend_vertex_cons,
      vec_at_neg_one]

/-! ## The inner loop as a fold over the later influences -/

theorem blend_step_at (dual_quat : List Dual_quat_cu) (q0 : Quat_cu) (pw tws : List ℚ)
    (pi tids : List Int) (k : Int) (w : ℚ) (acc : Dual_quat_cu) (hlen : pi.length = pw.length) :
    blend_step dual_quat (pw ++ w :: tws) (pi ++ k :: tids) q0 acc pi.length =
      pair_step dual_quat q0 acc (k, w) := by
  have h1 : (pi ++ k :: tids)[pi.length]? = some k := by
    rw [List.getElem?_append_right (le_refl _)]; simp
  have h2 : (pw ++ w :: tws)[pi.length]? = some w := by
    rw [hlen, List.getElem?_append_right (le_refl _)]; simp
  simp only [blend_step, h1, h2, pair_step, Option.bind_eq_bind, Option.some_bind,
    Option.pure_def]
  cases resolve_joint dual_quat k <;> rfl

theorem foldlM_blend_step_eq (dual_quat : List Dual_quat_cu) (q0 : Quat_cu) :
    ∀ (tids : List Int) (tws : List ℚ) (pi : List Int) (pw : List ℚ) (acc : Dual_quat_cu),
      pi.length = pw.length → tids.length = tws.length →
      (List.range' pi.length tws.length).foldlM
          (blend_step dual_quat (pw ++ tws) (pi ++ tids) q0) acc =
        (tids.zip tws).foldlM (pair_step dual_quat q0) acc := by
  intro tids
  induction tids with
  | nil =>
    intro tws pi pw acc _ hl
    have : tws = [] := List.length_eq_zero.mp hl.symm
    subst this
    rfl
  | cons k t ih =>
    intro tws pi pw acc hp hl
    cases tws with
    | nil => exact absurd hl (by simp)
    | cons w tw =>
      have hl2 : t.length = tw.length := by simpa using hl
      simp only [List.length_cons, List.range'_succ, List.foldlM_cons, List.zip_cons_cons,
        blend_step_at dual_quat q0 pw tw pi t k w acc hp]
      cases hstep : pair_step dual_quat q0 acc (k, w) with
      | none => rfl
      | some acc2 =>
        have h := ih tw (pi ++ [k]) (pw ++ [w]) acc2 (by simp [hp]) hl2
        simp only [List.length_append, List.length_singleton, List.append_assoc,
          List.singleton_append] at h
        simpa using h

theorem blend_vertex_pairs (dual_quat : List Dual_quat_cu) (w0 : ℚ) (tws : List ℚ) (k0 : Int)
    (tids : List Int) (hlen : tids.length = tws.length) :
    blend_vertex dual_quat (w0 :: tws) (k0 :: tids) =
      (vec_at dual_quat k0).bind fun P =>
        (tids.zip tws).foldlM (pair_step dual_quat P.rotation) (P * w0) := by
  rw [blend_vertex_cons]
  simp only [List.getElem?_cons_zero, Option.some_bind]
  cases vec_at dual_quat k0 with
  | none => rfl
  | some P =>
    simp only [Option.some_bind]
    exact foldlM_blend_step_eq dual_quat P.rotation tids tws [k0] [w0] (P * w0) rfl hlen

theorem signed_weight_eq_sign_mul (d : Dual_quat_cu) (q0 : Quat_cu) (w : ℚ) :
    signed_weight d q0 w = hemisphere_sign d q0 * w := by
  rw [signed_weight_eq, hemisphere_sign]
  split_ifs <;> ring

theorem foldlM_pair_step_resolved (dual_quat : List Dual_quat_cu) (q0 : Quat_cu)
    (tids : List Int) (dqs : List Dual_quat_cu)
    (hres : List.Forall₂ (fun k d => resolve_joint dual_quat k = some d) tids dqs) :
    ∀ (tws : List ℚ) (acc : Dual_quat_cu),
      (tids.zip tws).foldlM (pair_step dual_quat q0) acc =
        some (acc + signed_sum q0 dqs tws) := by
  induction hres with
  | nil =>
    intro tws acc
    simp [signed_sum, Dual_quat_cu.add_zero]
  | cons hkd _ ih =>
    intro tws acc
    cases tws with
    | nil => simp [signed_sum, Dual_quat_cu.add_zero]
    | cons w tw =>
      simp only [List.zip_cons_cons, List.foldlM_cons, pair_step, hkd, Option.map_some',
        Option.bind_eq_bind, Option.some_bind]
      rw [ih tw, signed_sum, signed_weight_eq_sign_mul, Dual_quat_cu.add_assoc]

theorem pair_step_swap (dual_quat : List Dual_quat_cu) (q0 : Quat_cu) (acc : Dual_quat_cu)
    (x y : Int × ℚ) (g : Dual_quat_cu → Option Dual_quat_cu) :
    ((pair_step dual_quat q0 acc x).bind fun a => (pair_step dual_quat q0 a y).bind g) =
    ((pair_step dual_quat q0 acc y).bind fun a => (pair_step dual_quat q0 a x).bind g) := by
  simp only [pair_step]
  cases resolve_joint dual_quat x.1 with
  | none => cases resolve_joint dual_quat y.1 <;> rfl
  | some dx =>
    cases resolve_joint dual_quat y.1 with
    | none => rfl
    | some dy =>
      simp only [Option.map_some', Option.some_bind]
      rw [Dual_quat_cu.add_right_comm]

theorem foldlM_pair_step_perm (dual_quat : List Dual_quat_cu) (q0 : Quat_cu)
    (l1 l2 : List (Int × ℚ)) (h : l1.Perm l2) :
    ∀ acc : Dual_quat_cu,
      l1.foldlM (pair_step dual_quat q0) acc = l2.foldlM (pair_step dual_quat q0) acc := by
  induction h with
  | nil => intro acc; rfl
  | cons x _ ih =>
    intro acc
    simp only [List.foldlM_cons]
    cases pair_step dual_quat q0 acc x with
    | none => rfl
    | some a => exact ih a
  | swap x y l =>
    intro acc
    simp only [List.foldlM_cons]
    exact pair_step_swap dual_quat q0 acc y x _
  | trans _ _ ih1 ih2 =>
    intro acc
    exact (ih1 acc).trans (ih2 acc)

theorem blend_vertex_from_zero (dual_quat : List Dual_quat_cu) (w0 : ℚ) (tws : List ℚ)
    (k0 : Int) (tids : List Int) (hlen : tids.length = tws.length) :
    blend_vertex dual_quat (w0 :: tws) (k0 :: tids) =
      (vec_at dual_quat k0).bind fun P =>
        ((k0 :: tids).zip (w0 :: tws)).foldlM (pair_step dual_quat P.rotation) 0 := by
  rw [blend_vertex_pairs dual_quat w0 tws k0 tids hlen]
  cases hP : vec_at dual_quat k0 with
  | none => rfl
  | some P =>
    simp only [Option.some_bind, List.zip_cons_cons, List.foldlM_cons, pair_step,
      resolve_joint_of_vec_at _ _ _ hP, Option.map_some', Option.bind_eq_bind,
      signed_weight_self, Dual_quat_cu.zero_add]

theorem blend_vertex_three (dual_quat : List Dual_quat_cu) (w0 w1 w2 : ℚ) (k0 k1 k2 : Int)
    (P d1 d2 : Dual_quat_cu) (hP : vec_at dual_quat k0 = some P)
    (h1 : resolve_joint dual_quat k1 = some d1) (h2 : resolve_joint dual_quat k2 = some d2) :
    blend_vertex dual_quat [w0, w1, w2] [k0, k1, k2] =
      some (P * w0 + d1 * signed_weight d1 P.rotation w1 + d2 * signed_weight d2 P.rotation w2) := by
  rw [blend_vertex_pairs dual_quat w0 [w1, w2] k0 [k1, k2] rfl]
  simp [hP, pair_step, h1, h2]

/-- In exact arithmetic a permutation of the influence list of a vertex (joint
id and weight permuted together) that leaves the same joint id at index 0, so
that the pivot is unchanged, leaves the blend and both outputs unchanged. -/
theorem blend_perm_same_pivot_exact (dual_quat : List Dual_quat_cu) (ws ws2 : List ℚ)
    (ids ids2 : List Int) (p : Point3) (n : Vec3)
    (hlen : ids.length = ws.length) (hlen2 : ids2.length = ws2.length)
    (hperm : (ids.zip ws).Perm (ids2.zip ws2)) (hpivot : ids[0]? = ids2[0]?) :
    blend_vertex dual_quat ws ids = blend_vertex dual_quat ws2 ids2 ∧
    deform_vertex dual_quat ws ids p n = deform_vertex dual_quat ws2 ids2 p n := by
  have hb : blend_vertex dual_quat ws ids = blend_vertex dual_quat ws2 ids2 := by
    have hl := hperm.length_eq
    simp only [List.length_zip, hlen, hlen2, min_self] at hl
    cases ids with
    | nil =>
      have hw : ws = [] := List.length_eq_zero.mp hlen.symm
      have hw2 : ws2 = [] := List.length_eq_zero.mp (by rw [← hl, hw]; rfl)
      rw [hw, hw2, blend_vertex_nil, blend_vertex_nil]
    | cons k0 tids =>
      cases ws with
      | nil => exact absurd hlen (by simp)
      | cons w0 tws =>
        cases ws2 with
        | nil => exact absurd hl (by simp)
        | cons w0b tws2 =>
          cases ids2 with
          | nil => exact absurd hlen2 (by simp)
          | cons k0b tids2 =>
            have hk : k0 = k0b := by simpa using hpivot
            subst hk
            rw [blend_vertex_from_zero dual_quat w0 tws k0 tids (by simpa using hlen),
              blend_vertex_from_zero dual_quat w0b tws2 k0 tids2 (by simpa using hlen2)]
            cases vec_at dual_quat k0 with
            | none => rfl
            | some P =>
              simp only [Option.some_bind]
              exact foldlM_pair_step_perm dual_quat P.rotation _ _ hperm 0
  exact ⟨hb, by simp only [deform_vertex, hb]⟩

/-! ## Negating the dual quaternion of a joint -/

/-- In exact arithmetic every permutation of the influences at indices `1..n-1`
(joint id and weight permuted together, index 0 kept in place) leaves the
blended dual quaternion unchanged. -/
theorem permute_later_influences_exact (dual_quat : List Dual_quat_cu) (k0 : Int) (w0 : ℚ)
    (tids tids2 : List Int) (tws tws2 : List ℚ)
    (hlen : tids.length = tws.length) (hlen2 : tids2.length = tws2.length)
    (hperm : (tids.zip tws).Perm (tids2.zip tws2)) :
    blend_vertex dual_quat (w0 :: tws) (k0 :: tids) =
      blend_vertex dual_quat (w0 :: tws2) (k0 :: tids2) := by
  rw [blend_vertex_pairs dual_quat w0 tws k0 tids hlen,
    blend_vertex_pairs dual_quat w0 tws2 k0 tids2 hlen2]
  cases vec_at dual_quat k0 with
  | none => rfl
  | some P =>
    simp only [Option.some_bind]
    exact foldlM_pair_step_perm dual_quat P.rotation _ _ hperm (P * w0)

/-! ## Scaling all the weights of a vertex -/

theorem Dual_quat_cu.add_scale (a b : Dual_quat_cu) (c : ℚ) : (a + b) * c = a * c + b * c := by
  simp only [Dual_quat_cu.scale_def, Dual_quat_cu.add_def]
  ext <;> simp only [] <;> ring

theorem signed_weight_scale (d : Dual_quat_cu) (q0 : Quat_cu) (w c : ℚ) :
    signed_weight d q0 (w * c) = signed_weight d q0 w * c := by
  simp only [signed_weight_eq]
  split_ifs <;> ring

theorem blend_step_scale (dual_quat : List Dual_quat_cu) (ws : List ℚ) (ids : List Int)
    (q0 : Quat_cu) (c : ℚ) (acc : Dual_quat_cu) (j : Nat) :
    blend_step dual_quat (ws.map fun w => w * c) ids q0 (acc * c) j =
      (blend_step dual_quat ws ids q0 acc j).map (fun b : Dual_quat_cu => (b * c : Dual_quat_cu)) := by
  simp only [blend_step, Option.bind_eq_bind, Option.pure_def, List.getElem?_map]
  cases ids[j]? with
  | none => rfl
  | some kj =>
    cases ws[j]? with
    | none => rfl
    | some w =>
      simp only [Option.some_bind, Option.map_some']
      cases resolve_joint dual_quat kj with
      | none => rfl
      | some d =>
        simp only [Option.some_bind, Option.map_some', signed_weight_scale,
          Dual_quat_cu.add_scale, Dual_quat_cu.scale_scale]

theorem foldlM_blend_step_scale (dual_quat : List Dual_quat_cu) (ws : List ℚ) (ids : List Int)
    (q0 : Quat_cu) (c : ℚ) (js : List Nat) :
    ∀ acc : Dual_quat_cu,
      js.foldlM (blend_step dual_quat (ws.map fun w => w * c) ids q0) (acc * c) =
        (js.foldlM (blend_step dual_quat ws ids q0) acc).map (fun b : Dual_quat_cu => (b * c : Dual_quat_cu)) := by
  induction js with
  | nil => intro acc; rfl
  | cons j rest ih =>
    intro acc
    simp only [List.foldlM_cons]
    rw [blend_step_scale]
    cases blend_step dual_quat ws ids q0 acc j with
    | none => rfl
    | some a => exact ih a

theorem blend_vertex_scale_weights (dual_quat : List Dual_quat_cu) (ws : List ℚ)
    (ids : List Int) (c : ℚ) :
    blend_vertex dual_quat (ws.map fun w => w * c) ids =
      (blend_vertex dual_quat ws ids).map (fun b : Dual_quat_cu => (b * c : Dual_quat_cu)) := by
  cases ws with
  | nil => simp only [List.map_nil, blend_vertex_nil, Option.map_none']
  | cons w0 tws =>
    have hm : (w0 * c :: List.map (fun w => w * c) tws)
        = List.map (fun w => w * c) (w0 :: tws) := rfl
    rw [List.map_cons, blend_vertex_cons, blend_vertex_cons, List.length_map, hm]
    cases ids[0]? with
    | none => rfl
    | some k0 =>
      simp only [Option.some_bind]
      cases vec_at dual_quat k0 with
      | none => rfl
      | some P =>
        simp only [Option.some_bind, ← Dual_quat_cu.scale_scale]
        exact foldlM_blend_step_scale dual_quat (w0 :: tws) ids P.rotation c _ (P * w0)

/-- In exact arithmetic, for a vertex with a valid pivot id `k0` and resolvable
later joint ids, multiplying all of its weights by a scalar `c` multiplies the
blended dual quaternion by `c` component-wise. -/
theorem weight_homogeneity_exact (dual_quat : List Dual_quat_cu) (k0 : Int) (w0 c : ℚ)
    (tids : List Int) (tws : List ℚ) (P : Dual_quat_cu) (dqs : List Dual_quat_cu)
    (hP : vec_at dual_quat k0 = some P) (hlen : tids.length = tws.length)
    (hres : List.Forall₂ (fun k d => resolve_joint dual_quat k = some d) tids dqs) :
    (∃ B : Dual_quat_cu,
      blend_vertex dual_quat (w0 :: tws) (k0 :: tids) = some B ∧
      blend_vertex dual_quat ((w0 :: tws).map fun w => w * c) (k0 :: tids) = some (B * c)) ∧
    (∀ (d : Dual_quat_cu) (q0 : Quat_cu) (w : ℚ),
      signed_weight d q0 (w * c) = signed_weight d q0 w * c) := by
  have hb : blend_vertex dual_quat (w0 :: tws) (k0 :: tids)
      = some (P * w0 + signed_sum P.rotation dqs tws) := by
    rw [blend_vertex_pairs dual_quat w0 tws k0 tids hlen, hP, Option.some_bind,
      foldlM_pair_step_resolved dual_quat P.rotation tids dqs hres]
  refine ⟨⟨_, hb, ?_⟩, fun d q0 w => signed_weight_scale d q0 w c⟩
  rw [blend_vertex_scale_weights, hb, Option.map_some']

/-! ## The dot product of the running blend with the pivot rotation -/

theorem round_even_near (x : ℚ) (n : ℤ) (h1 : (n : ℚ) - 1 / 2 < x) (h2 : x < n + 1 / 2) :
    round_even x = n := by
  unfold round_even
  rcases le_or_lt (n : ℚ) x with h | h
  · have hf : ⌊x⌋ = n := Int.floor_eq_iff.mpr ⟨h, by linarith⟩
    rw [hf, if_pos (by linarith)]
  · have hf : ⌊x⌋ = n - 1 :=
      Int.floor_eq_iff.mpr ⟨by push_cast; linarith, by push_cast; linarith⟩
    rw [hf]
    have h3 : ¬ (x - ((n - 1 : ℤ) : ℚ) < 1 / 2) := by push_cast; linarith
    have h4 : (1 / 2 : ℚ) < x - ((n - 1 : ℤ) : ℚ) := by push_cast; linarith
    rw [if_neg h3, if_pos h4]
    ring

theorem round_even_int (n : ℤ) : round_even (n : ℚ) = n :=
  round_even_near _ n (by linarith) (by linarith)

theorem round_even_tie (n : ℤ) :
    round_even ((n : ℚ) + 1 / 2) = if n % 2 = 0 then n else n + 1 := by
  unfold round_even
  have hf : ⌊(n : ℚ) + 1 / 2⌋ = n := Int.floor_eq_iff.mpr ⟨by linarith, by linarith⟩
  rw [hf, if_neg (by linarith), if_neg (by linarith)]

theorem ulp32_normal (x : ℚ) (e : ℤ) (hx : 0 < x) (he : -126 ≤ e) (hlo : (2 : ℚ) ^ e ≤ x)
    (hhi : x < (2 : ℚ) ^ (e + 1)) : ulp32 x = (2 : ℚ) ^ (e - 23) := by
  have h1 : e ≤ Int.log 2 x :=
    (Int.zpow_le_iff_le_log (by norm_num) hx).mp (by exact_mod_cast hlo)
  have h2 : Int.log 2 x < e + 1 :=
    (Int.lt_zpow_iff_log_lt (by norm_num) hx).mp (by exact_mod_cast hhi)
  have h3 : Int.log 2 x = e := by omega
  rw [ulp32, h3, max_eq_left he]

theorem ulp32_subnormal (x : ℚ) (hx : 0 < x) (hhi : x < (2 : ℚ) ^ (-126 : ℤ)) :
    ulp32 x = (2 : ℚ) ^ (-149 : ℤ) := by
  have h2 : Int.log 2 x < -126 :=
    (Int.lt_zpow_iff_log_lt (by norm_num) hx).mp (by exact_mod_cast hhi)
  rw [ulp32, max_eq_right (le_of_lt h2)]
  norm_num

theorem round32_zero : round32 0 = 0 := by
  have hu : ulp32 0 = (2 : ℚ) ^ (-23 : ℤ) := by
    rw [ulp32, Int.log_zero_right]
    norm_num
  have hr : round_even ((0 : ℚ) / (2 : ℚ) ^ (-23 : ℤ)) = 0 := by
    rw [zero_div]
    exact_mod_cast round_even_int 0
  rw [round32, if_pos (le_refl _), round32_nonneg, hu, hr]
  norm_num

theorem round32_neg (x : ℚ) : round32 (-x) = -round32 x := by
  rcases lt_trichotomy x 0 with h | h | h
  · rw [round32, round32, if_pos (by linarith), if_neg (by linarith), neg_neg]
  · subst h
    rw [neg_zero, round32_zero, neg_zero]
  · rw [round32, round32, if_neg (by linarith), if_pos (by linarith), neg_neg]

/-- A positive value on the binary32 grid of its binade is stored exactly. -/
theorem round32_fix (x : ℚ) (e n : ℤ) (hx : 0 < x) (he : -126 ≤ e) (he2 : e < 128)
    (hlo : (2 : ℚ) ^ e ≤ x) (hhi : x < (2 : ℚ) ^ (e + 1)) (hn : x = n * (2 : ℚ) ^ (e - 23)) :
    round32 x = x := by
  have hu := ulp32_normal x e hx he hlo hhi
  have hq : x / (2 : ℚ) ^ (e - 23) = n := by
    rw [hn, mul_div_assoc, div_self (zpow_ne_zero _ (by norm_num)), mul_one]
  have hfin : ¬ ((2 : ℚ) ^ 128 ≤ x) := by
    have h128 : (2 : ℚ) ^ (e + 1) ≤ (2 : ℚ) ^ (128 : ℤ) :=
      zpow_le_zpow_right₀ (by norm_num) (by omega)
    have : ((2 : ℚ) ^ (128 : ℤ)) = (2 : ℚ) ^ 128 := by norm_num
    rw [this] at h128
    linarith
  rw [round32, if_pos (le_of_lt hx), round32_nonneg, hu, hq, round_even_int, ← hn, if_neg hfin]

theorem round32_one : round32 1 = 1 :=
  round32_fix 1 0 8388608 (by norm_num) (by norm_num) (by norm_num) (by norm_num) (by norm_num)
    (by norm_num)

theorem round32_two_pow_24 : round32 16777216 = 16777216 :=
  round32_fix 16777216 24 8388608 (by norm_num) (by norm_num) (by norm_num) (by norm_num)
    (by norm_num) (by norm_num)

theorem round32_two_pow_24_pred : round32 16777215 = 16777215 :=
  round32_fix 16777215 23 16777215 (by norm_num) (by norm_num) (by norm_num) (by norm_num)
    (by norm_num) (by norm_num)

/-- The sum `1 + 2 ^ 24` is halfway between two binary32 values and is stored as
the even one, `2 ^ 24`. -/
theorem round32_two_pow_24_succ : round32 16777217 = 16777216 := by
  have hu := ulp32_normal 16777217 24 (by norm_num) (by norm_num) (by norm_num) (by norm_num)
  have hq : (16777217 : ℚ) / (2 : ℚ) ^ (24 - 23 : ℤ) = ((8388608 : ℤ) : ℚ) + 1 / 2 := by
    norm_num
  rw [round32, if_pos (by norm_num), round32_nonneg, hu, hq, round_even_tie]
  norm_num

/-- Half of the least subnormal value is halfway between 0 and `2 ^ (-149)` and
is stored as the even one, 0. -/
theorem round32_half_least : round32 (1 / 2 * (2 : ℚ) ^ (-149 : ℤ)) = 0 := by
  have hu := ulp32_subnormal (1 / 2 * (2 : ℚ) ^ (-149 : ℤ)) (by positivity) (by norm_num)
  have hq : (1 / 2 * (2 : ℚ) ^ (-149 : ℤ)) / (2 : ℚ) ^ (-149 : ℤ) = ((0 : ℤ) : ℚ) + 1 / 2 := by
    rw [mul_div_assoc, div_self (zpow_ne_zero _ (by norm_num))]
    norm_num
  rw [round32, if_pos (by positivity), round32_nonneg, hu, hq, round_even_tie]
  norm_num

theorem Dual_quat_cu.fl_map_id (d : Dual_quat_cu) : d.fl_map (fun x => x) = d := rfl

theorem Dual_quat_cu.fl_scale_id (d : Dual_quat_cu) (s : ℚ) :
    d.fl_scale (fun x => x) s = d * s := rfl

theorem Dual_quat_cu.fl_add_id (a b : Dual_quat_cu) : a.fl_add (fun x => x) b = a + b := rfl

theorem Quat_cu.fl_dot_id (a b : Quat_cu) : a.fl_dot (fun x => x) b = a.dot b := rfl

theorem fl_signed_weight_id (d : Dual_quat_cu) (q0 : Quat_cu) (w : ℚ) :
    fl_signed_weight (fun x => x) d q0 w = signed_weight d q0 w := rfl

/-- With the identity as rounding the rounded blend is the exact blend. -/
theorem fl_blend_vertex_id (dual_quat : List Dual_quat_cu) (ws : List ℚ) (ids : List Int) :
    fl_blend_vertex (fun x => x) dual_quat ws ids = blend_vertex dual_quat ws ids := rfl

theorem fl_blend_vertex_nil (rnd : ℚ → ℚ) (dual_quat : List Dual_quat_cu)
    (joints_id_v : List Int) : fl_blend_vertex rnd dual_quat [] joints_id_v = none := by
  simp [fl_blend_vertex, vec_at]

theorem fl_blend_vertex_cons (rnd : ℚ → ℚ) (dual_quat : List Dual_quat_cu) (w0 : ℚ)
    (tws : List ℚ) (joints_id_v : List Int) :
    fl_blend_vertex rnd dual_quat (w0 :: tws) joints_id_v =
      (joints_id_v[0]?).bind fun k0 =>
        (vec_at dual_quat k0).bind fun P =>
          (List.range' 1 tws.length).foldlM
            (fl_blend_step rnd dual_quat (w0 :: tws) joints_id_v P.rotation)
            (P.fl_scale rnd w0) := by
  cases h : joints_id_v[0]? with
  | none => simp [fl_blend_vertex, h]
  | some k0 =>
    by_cases hk : k0 = -1
    · subst hk
      simp [fl_blend_vertex, h, vec_at]
    · cases hP : vec_at dual_quat k0 with
      | none => simp [fl_blend_vertex, h, hk, hP]
      | some P => simp [fl_blend_vertex, h, hk, hP]

/-- Iterations free of rounding error compute what the exact iterations
compute. -/
theorem fl_foldlM_of_exact (rnd : ℚ → ℚ) (dual_quat : List Dual_quat_cu) (ws : List ℚ)
    (ids : List Int) (q0 : Quat_cu) (js : List Nat) :
    ∀ acc : Dual_quat_cu, fl_exact_steps rnd dual_quat ws ids q0 acc js →
      js.foldlM (fl_blend_step rnd dual_quat ws ids q0) acc =
        js.foldlM (blend_step dual_quat ws ids q0) acc := by
  induction js with
  | nil => intro acc _; rfl
  | cons j rest ih =>
    intro acc h
    obtain ⟨h1, h2⟩ := h
    simp only [List.foldlM_cons, h1]
    cases hB : blend_step dual_quat ws ids q0 acc j with
    | none => rfl
    | some B => exact ih B (h2 B hB)

/-- A run free of rounding error computes the exact blend. -/
theorem fl_blend_vertex_of_exact (rnd : ℚ → ℚ) (dual_quat : List Dual_quat_cu) (ws : List ℚ)
    (ids : List Int) (h : fl_exact_run rnd dual_quat ws ids (ws.length - 1)) :
    fl_blend_vertex rnd dual_quat ws ids = blend_vertex dual_quat ws ids := by
  cases ws with
  | nil => rw [fl_blend_vertex_nil, blend_vertex_nil]
  | cons w0 tws =>
    rw [fl_blend_vertex_cons, blend_vertex_cons]
    cases hk : ids[0]? with
    | none => rfl
    | some k0 =>
      simp only [Option.some_bind]
      cases hP : vec_at dual_quat k0 with
      | none => rfl
      | some P =>
        obtain ⟨hs, hsteps⟩ := h k0 w0 P hk (List.getElem?_cons_zero) hP
        simp only [Option.some_bind, hs]
        simp only [List.length_cons, Nat.add_sub_cancel] at hsteps
        exact fl_foldlM_of_exact rnd dual_quat (w0 :: tws) ids P.rotation _ _ hsteps

/-- With the identity as rounding every run is free of rounding error. -/
theorem fl_exact_steps_id (dual_quat : List Dual_quat_cu) (ws : List ℚ) (ids : List Int)
    (q0 : Quat_cu) (js : List Nat) :
    ∀ acc : Dual_quat_cu, fl_exact_steps (fun x => x) dual_quat ws ids q0 acc js := by
  induction js with
  | nil => intro acc; exact True.intro
  | cons j rest ih => intro acc; exact ⟨rfl, fun B _ => ih B⟩

/-! ## Permuting the later influences, in rounded arithmetic -/

/-- C14, counterexample. One joint, the identity, referenced by three
influences with weights `[1, 2 ^ 24, -2 ^ 24]`, and the permutation of the two
later influences. In binary32 the first order stores `1 + 2 ^ 24` as `2 ^ 24` and
ends with the zero dual quaternion; the second order stores `1 - 2 ^ 24` exactly
and ends with the identity. -/
theorem float_sum_depends_on_order :
    ([(0 : Int), 0].zip [(16777216 : ℚ), -16777216]).Perm
      ([(0 : Int), 0].zip [(-16777216 : ℚ), 16777216]) ∧
    fl_blend_vertex round32 [Dual_quat_cu.identity] (1 :: [16777216, -16777216])
      (0 :: [0, 0]) = some ⟨⟨0, 0, 0, 0⟩, ⟨0, 0, 0, 0⟩⟩ ∧
    fl_blend_vertex round32 [Dual_quat_cu.identity] (1 :: [-16777216, 16777216])
      (0 :: [0, 0]) = some ⟨⟨1, 0, 0, 0⟩, ⟨0, 0, 0, 0⟩⟩ ∧
    fl_blend_vertex round32 [Dual_quat_cu.identity] (1 :: [16777216, -16777216]) (0 :: [0, 0])
      ≠ fl_blend_vertex round32 [Dual_quat_cu.identity] (1 :: [-16777216, 16777216])
        (0 :: [0, 0]) := by
  have hr : List.range' 1 2 = [1, 2] := rfl
  have h1 : fl_blend_vertex round32 [Dual_quat_cu.identity] (1 :: [16777216, -16777216])
      (0 :: [0, 0]) = some ⟨⟨0, 0, 0, 0⟩, ⟨0, 0, 0, 0⟩⟩ := by
    rw [fl_blend_vertex_cons]
    simp only [List.length_cons, List.length_nil, hr]
    norm_num [vec_at, fl_blend_step, resolve_joint, fl_signed_weight, fl_hemisphere_flip,
      Quat_cu.fl_dot, Dual_quat_cu.identity, Dual_quat_cu.rotation, Dual_quat_cu.fl_scale,
      Dual_quat_cu.fl_add, Dual_quat_cu.fl_map, Quat_cu.fl_map, Dual_quat_cu.add_def,
      Dual_quat_cu.scale_def, round32_zero, round32_one, round32_neg, round32_two_pow_24,
      round32_two_pow_24_succ, round32_two_pow_24_pred]
  have h2 : fl_blend_vertex round32 [Dual_quat_cu.identity] (1 :: [-16777216, 16777216])
      (0 :: [0, 0]) = some ⟨⟨1, 0, 0, 0⟩, ⟨0, 0, 0, 0⟩⟩ := by
    rw [fl_blend_vertex_cons]
    simp only [List.length_cons, List.length_nil, hr]
    norm_num [vec_at, fl_blend_step, resolve_joint, fl_signed_weight, fl_hemisphere_flip,
      Quat_cu.fl_dot, Dual_quat_cu.identity, Dual_quat_cu.rotation, Dual_quat_cu.fl_scale,
      Dual_quat_cu.fl_add, Dual_quat_cu.fl_map, Quat_cu.fl_map, Dual_quat_cu.add_def,
      Dual_quat_cu.scale_def, round32_zero, round32_one, round32_neg, round32_two_pow_24,
      round32_two_pow_24_succ, round32_two_pow_24_pred]
  refine ⟨List.Perm.swap _ _ _, h1, h2, ?_⟩
  rw [h1, h2]
  intro h
  have hw := congrArg (fun d : Dual_quat_cu => d.quat_0.w) (Option.some.inj h)
  norm_num at hw

theorem fl_exact_steps_cons (rnd : ℚ → ℚ) (dual_quat : List Dual_quat_cu) (ws : List ℚ)
    (ids : List Int) (q0 : Quat_cu) (acc B : Dual_quat_cu) (j : Nat) (js : List Nat)
    (hB : blend_step dual_quat ws ids q0 acc j = some B)
    (hfl : fl_blend_step rnd dual_quat ws ids q0 acc j = some B)
    (hrest : fl_exact_steps rnd dual_quat ws ids q0 B js) :
    fl_exact_steps rnd dual_quat ws ids q0 acc (j :: js) := by
  refine ⟨hfl.trans hB.symm, ?_⟩
  intro B2 hB2
  have e : B = B2 := Option.some.inj (hB.symm.trans hB2)
  subst e
  exact hrest

theorem fl_exact_run_of (rnd : ℚ → ℚ) (dual_quat : List Dual_quat_cu) (ws : List ℚ)
    (ids : List Int) (m : Nat) (k0 : Int) (w0 : ℚ) (P : Dual_quat_cu)
    (hk : ids[0]? = some k0) (hw : ws[0]? = some w0) (hP : vec_at dual_quat k0 = some P)
    (hseed : P.fl_scale rnd w0 = P * w0)
    (hsteps : fl_exact_steps rnd dual_quat ws ids P.rotation (P * w0) (List.range' 1 m)) :
    fl_exact_run rnd dual_quat ws ids m := by
  intro k0b w0b Pb hkb hwb hPb
  have e1 : k0 = k0b := Option.some.inj (hk.symm.trans hkb)
  subst e1
  have e2 : w0 = w0b := Option.some.inj (hw.symm.trans hwb)
  subst e2
  have e3 : P = Pb := Option.some.inj (hP.symm.trans hPb)
  subst e3
  exact ⟨hseed, hsteps⟩

theorem round32_half : round32 (1 / 2) = 1 / 2 :=
  round32_fix (1 / 2) (-1) 8388608 (by norm_num) (by norm_num) (by norm_num) (by norm_num)
    (by norm_num) (by norm_num)

theorem round32_quarter : round32 (1 / 4) = 1 / 4 :=
  round32_fix (1 / 4) (-2) 8388608 (by norm_num) (by norm_num) (by norm_num) (by norm_num)
    (by norm_num) (by norm_num)

theorem round32_three_quarters : round32 (3 / 4) = 3 / 4 :=
  round32_fix (3 / 4) (-1) 12582912 (by norm_num) (by norm_num) (by norm_num) (by norm_num)
    (by norm_num) (by norm_num)

/-- C14, amended. A permutation of the influences at indices `1..n-1` (joint id
and weight permuted together, index 0 kept in place) leaves the blended dual
quaternion unchanged when, in both orders, the seed `dual_quat[k0] * w0` and
every iteration of the inner loop are free of rounding error. -/
theorem permute_later_influences_no_rounding (rnd : ℚ → ℚ) (dual_quat : List Dual_quat_cu)
    (k0 : Int) (w0 : ℚ) (tids tids2 : List Int) (tws tws2 : List ℚ)
    (hlen : tids.length = tws.length) (hlen2 : tids2.length = tws2.length)
    (hperm : (tids.zip tws).Perm (tids2.zip tws2))
    (hex1 : fl_exact_run rnd dual_quat (w0 :: tws) (k0 :: tids) tws.length)
    (hex2 : fl_exact_run rnd dual_quat (w0 :: tws2) (k0 :: tids2) tws2.length) :
    fl_blend_vertex rnd dual_quat (w0 :: tws) (k0 :: tids) =
      fl_blend_vertex rnd dual_quat (w0 :: tws2) (k0 :: tids2) := by
  rw [fl_blend_vertex_of_exact rnd dual_quat (w0 :: tws) (k0 :: tids) hex1,
    fl_blend_vertex_of_exact rnd dual_quat (w0 :: tws2) (k0 :: tids2) hex2]
  exact permute_later_influences_exact dual_quat k0 w0 tids tids2 tws tws2 hlen hlen2 hperm

theorem round32_eighth : round32 (1 / 8) = 1 / 8 :=
  round32_fix (1 / 8) (-3) 8388608 (by norm_num) (by norm_num) (by norm_num) (by norm_num)
    (by norm_num) (by norm_num)

theorem round32_five_eighths : round32 (5 / 8) = 5 / 8 :=
  round32_fix (5 / 8) (-1) 10485760 (by norm_num) (by norm_num) (by norm_num) (by norm_num)
    (by norm_num) (by norm_num)

theorem round32_inv_two : round32 2⁻¹ = 2⁻¹ := by
  have h := round32_half
  rwa [one_div] at h

theorem round32_inv_four : round32 4⁻¹ = 4⁻¹ := by
  have h := round32_quarter
  rwa [one_div] at h

theorem round32_inv_eight : round32 8⁻¹ = 8⁻¹ := by
  have h := round32_eighth
  rwa [one_div] at h

theorem example_run_a_exact :
    fl_exact_run round32 [Dual_quat_cu.identity, half_turn ⟨1, 0, 0⟩] (1 / 2 :: [1 / 4, 1 / 8])
      (0 :: [1, 0]) [(1 / 4 : ℚ), 1 / 8].length := by
  have hr : List.range' 1 [(1 / 4 : ℚ), 1 / 8].length = [1, 2] := rfl
  refine fl_exact_run_of round32 _ _ _ _ 0 (1 / 2) Dual_quat_cu.identity (by simp) (by simp)
    (by simp [vec_at]) ?_ ?_
  · norm_num [Dual_quat_cu.fl_scale, Dual_quat_cu.fl_map, Quat_cu.fl_map,
      Dual_quat_cu.scale_def, Dual_quat_cu.identity, round32_zero, round32_inv_two, round32_half]
  · rw [hr]
    refine fl_exact_steps_cons round32 _ _ _ _ _ ⟨⟨1 / 2, 1 / 4, 0, 0⟩, ⟨0, 0, 0, 0⟩⟩ _ _ ?_ ?_
      (fl_exact_steps_cons round32 _ _ _ _ _ ⟨⟨5 / 8, 1 / 4, 0, 0⟩, ⟨0, 0, 0, 0⟩⟩ _ _ ?_ ?_
        True.intro)
    · norm_num [blend_step, resolve_joint, vec_at, signed_weight_eq, half_turn,
        Dual_quat_cu.identity, Dual_quat_cu.rotation, Quat_cu.dot, Dual_quat_cu.add_def,
        Dual_quat_cu.scale_def]
    · norm_num [fl_blend_step, resolve_joint, vec_at, fl_signed_weight, fl_hemisphere_flip,
        Quat_cu.fl_dot, half_turn, Dual_quat_cu.identity, Dual_quat_cu.rotation,
        Dual_quat_cu.fl_scale, Dual_quat_cu.fl_add, Dual_quat_cu.fl_map, Quat_cu.fl_map,
        Dual_quat_cu.add_def, Dual_quat_cu.scale_def, round32_zero, round32_one,
        round32_inv_two, round32_inv_four, round32_inv_eight, round32_five_eighths,
        round32_half, round32_quarter, round32_eighth]
    · norm_num [blend_step, resolve_joint, vec_at, signed_weight_eq, half_turn,
        Dual_quat_cu.identity, Dual_quat_cu.rotation, Quat_cu.dot, Dual_quat_cu.add_def,
        Dual_quat_cu.scale_def]
    · norm_num [fl_blend_step, resolve_joint, vec_at, fl_signed_weight, fl_hemisphere_flip,
        Quat_cu.fl_dot, half_turn, Dual_quat_cu.identity, Dual_quat_cu.rotation,
        Dual_quat_cu.fl_scale, Dual_quat_cu.fl_add, Dual_quat_cu.fl_map, Quat_cu.fl_map,
        Dual_quat_cu.add_def, Dual_quat_cu.scale_def, round32_zero, round32_one,
        round32_inv_two, round32_inv_four, round32_inv_eight, round32_five_eighths,
        round32_half, round32_quarter, round32_eighth]

theorem example_run_b_exact :
    fl_exact_run round32 [Dual_quat_cu.identity, half_turn ⟨1, 0, 0⟩] (1 / 2 :: [1 / 8, 1 / 4])
      (0 :: [0, 1]) [(1 / 8 : ℚ), 1 / 4].length := by
  have hr : List.range' 1 [(1 / 8 : ℚ), 1 / 4].length = [1, 2] := rfl
  refine fl_exact_run_of round32 _ _ _ _ 0 (1 / 2) Dual_quat_cu.identity (by simp) (by simp)
    (by simp [vec_at]) ?_ ?_
  · norm_num [Dual_quat_cu.fl_scale, Dual_quat_cu.fl_map, Quat_cu.fl_map,
      Dual_quat_cu.scale_def, Dual_quat_cu.identity, round32_zero, round32_inv_two, round32_half]
  · rw [hr]
    refine fl_exact_steps_cons round32 _ _ _ _ _ ⟨⟨5 / 8, 0, 0, 0⟩, ⟨0, 0, 0, 0⟩⟩ _ _ ?_ ?_
      (fl_exact_steps_cons round32 _ _ _ _ _ ⟨⟨5 / 8, 1 / 4, 0, 0⟩, ⟨0, 0, 0, 0⟩⟩ _ _ ?_ ?_
        True.intro)
    · norm_num [blend_step, resolve_joint, vec_at, signed_weight_eq, half_turn,
        Dual_quat_cu.identity, Dual_quat_cu.rotation, Quat_cu.dot, Dual_quat_cu.add_def,
        Dual_quat_cu.scale_def]
    · norm_num [fl_blend_step, resolve_joint, vec_at, fl_signed_weight, fl_hemisphere_flip,
        Quat_cu.fl_dot, half_turn, Dual_quat_cu.identity, Dual_quat_cu.rotation,
        Dual_quat_cu.fl_scale, Dual_quat_cu.fl_add, Dual_quat_cu.fl_map, Quat_cu.fl_map,
        Dual_quat_cu.add_def, Dual_quat_cu.scale_def, round32_zero, round32_one,
        round32_inv_two, round32_inv_four, round32_inv_eight, round32_five_eighths,
        round32_half, round32_quarter, round32_eighth]
    · norm_num [blend_step, resolve_joint, vec_at, signed_weight_eq, half_turn,
        Dual_quat_cu.identity, Dual_quat_cu.rotation, Quat_cu.dot, Dual_quat_cu.add_def,
        Dual_quat_cu.scale_def]
    · norm_num [fl_blend_step, resolve_joint, vec_at, fl_signed_weight, fl_hemisphere_flip,
        Quat_cu.fl_dot, half_turn, Dual_quat_cu.identity, Dual_quat_cu.rotation,
        Dual_quat_cu.fl_scale, Dual_quat_cu.fl_add, Dual_quat_cu.fl_map, Quat_cu.fl_map,
        Dual_quat_cu.add_def, Dual_quat_cu.scale_def, round32_zero, round32_one,
        round32_inv_two, round32_inv_four, round32_inv_eight, round32_five_eighths,
        round32_half, round32_quarter, round32_eighth]

theorem permute_later_influences_no_rounding_witness :
    [(1 : Int), 0].length = [(1 / 4 : ℚ), 1 / 8].length ∧
    [(0 : Int), 1].length = [(1 / 8 : ℚ), 1 / 4].length ∧
    ([(1 : Int), 0].zip [(1 / 4 : ℚ), 1 / 8]).Perm ([(0 : Int), 1].zip [(1 / 8 : ℚ), 1 / 4]) ∧
    fl_exact_run round32 [Dual_quat_cu.identity, half_turn ⟨1, 0, 0⟩] (1 / 2 :: [1 / 4, 1 / 8])
      (0 :: [1, 0]) [(1 / 4 : ℚ), 1 / 8].length ∧
    fl_exact_run round32 [Dual_quat_cu.identity, half_turn ⟨1, 0, 0⟩] (1 / 2 :: [1 / 8, 1 / 4])
      (0 :: [0, 1]) [(1 / 8 : ℚ), 1 / 4].length ∧
    fl_blend_vertex round32 [Dual_quat_cu.identity, half_turn ⟨1, 0, 0⟩]
        (1 / 2 :: [1 / 4, 1 / 8]) (0 :: [1, 0]) =
      fl_blend_vertex round32 [Dual_quat_cu.identity, half_turn ⟨1, 0, 0⟩]
        (1 / 2 :: [1 / 8, 1 / 4]) (0 :: [0, 1]) :=
  ⟨rfl, rfl, List.Perm.swap _ _ _, example_run_a_exact, example_run_b_exact,
    permute_later_influences_no_rounding round32 _ 0 (1 / 2) [1, 0] [0, 1] [1 / 4, 1 / 8]
      [1 / 8, 1 / 4] rfl rfl (List.Perm.swap _ _ _) example_run_a_exact example_run_b_exact⟩

/-! ## Rounded arithmetic: symmetry in the sign, pairs of the later influences -/

theorem Dual_quat_cu.fl_map_neg (rnd : ℚ → ℚ) (hsym : ∀ x, rnd (-x) = -rnd x)
    (d : Dual_quat_cu) : (-d).fl_map rnd = -(d.fl_map rnd) := by
  simp only [Dual_quat_cu.fl_map, Quat_cu.fl_map, Dual_quat_cu.neg_def, hsym]

theorem Dual_quat_cu.fl_scale_neg_weight (rnd : ℚ → ℚ) (hsym : ∀ x, rnd (-x) = -rnd x)
    (d : Dual_quat_cu) (s : ℚ) : d.fl_scale rnd (-s) = -(d.fl_scale rnd s) := by
  rw [Dual_quat_cu.fl_scale, Dual_quat_cu.scale_neg, Dual_quat_cu.fl_map_neg rnd hsym,
    Dual_quat_cu.fl_scale]

theorem Dual_quat_cu.fl_add_neg (rnd : ℚ → ℚ) (hsym : ∀ x, rnd (-x) = -rnd x)
    (a b : Dual_quat_cu) : (-a).fl_add rnd (-b) = -(a.fl_add rnd b) := by
  rw [Dual_quat_cu.fl_add, ← Dual_quat_cu.neg_add, Dual_quat_cu.fl_map_neg rnd hsym,
    Dual_quat_cu.fl_add]

theorem Dual_quat_cu.fl_add_comm (rnd : ℚ → ℚ) (a b : Dual_quat_cu) :
    a.fl_add rnd b = b.fl_add rnd a := by
  rw [Dual_quat_cu.fl_add, Dual_quat_cu.add_comm, Dual_quat_cu.fl_add]

theorem Quat_cu.fl_dot_comm (rnd : ℚ → ℚ) (a b : Quat_cu) : a.fl_dot rnd b = b.fl_dot rnd a := by
  simp only [Quat_cu.fl_dot, mul_comm]

theorem fl_blend_step_at (rnd : ℚ → ℚ) (dual_quat : List Dual_quat_cu) (q0 : Quat_cu)
    (pw tws : List ℚ) (pi tids : List Int) (k : Int) (w : ℚ) (acc : Dual_quat_cu)
    (hlen : pi.length = pw.length) :
    fl_blend_step rnd dual_quat (pw ++ w :: tws) (pi ++ k :: tids) q0 acc pi.length =
      fl_pair_step rnd dual_quat q0 acc (k, w) := by
  have h1 : (pi ++ k :: tids)[pi.length]? = some k := by
    rw [List.getElem?_append_right (le_refl _)]; simp
  have h2 : (pw ++ w :: tws)[pi.length]? = some w := by
    rw [hlen, List.getElem?_append_right (le_refl _)]; simp
  simp only [fl_blend_step, h1, h2, fl_pair_step, Option.bind_eq_bind, Option.some_bind,
    Option.pure_def]
  cases resolve_joint dual_quat k <;> rfl

theorem fl_foldlM_blend_step_eq (rnd : ℚ → ℚ) (dual_quat : List Dual_quat_cu) (q0 : Quat_cu) :
    ∀ (tids : List Int) (tws : List ℚ) (pi : List Int) (pw : List ℚ) (acc : Dual_quat_cu),
      pi.length = pw.length → tids.length = tws.length →
      (List.range' pi.length tws.length).foldlM
          (fl_blend_step rnd dual_quat (pw ++ tws) (pi ++ tids) q0) acc =
        (tids.zip tws).foldlM (fl_pair_step rnd dual_quat q0) acc := by
  intro tids
  induction tids with
  | nil =>
    intro tws pi pw acc _ hl
    have : tws = [] := List.length_eq_zero.mp hl.symm
    subst this
    rfl
  | cons k t ih =>
    intro tws pi pw acc hp hl
    cases tws with
    | nil => exact absurd hl (by simp)
    | cons w tw =>
      have hl2 : t.length = tw.length := by simpa using hl
      simp only [List.length_cons, List.range'_succ, List.foldlM_cons, List.zip_cons_cons,
        fl_blend_step_at rnd dual_quat q0 pw tw pi t k w acc hp]
      cases hstep : fl_pair_step rnd dual_quat q0 acc (k, w) with
      | none => rfl
      | some acc2 =>
        have h := ih tw (pi ++ [k]) (pw ++ [w]) acc2 (by simp [hp]) hl2
        simp only [List.length_append, List.length_singleton, List.append_assoc,
          List.singleton_append] at h
        simpa using h

theorem fl_blend_vertex_pairs (rnd : ℚ → ℚ) (dual_quat : List Dual_quat_cu) (w0 : ℚ)
    (tws : List ℚ) (k0 : Int) (tids : List Int) (hlen : tids.length = tws.length) :
    fl_blend_vertex rnd dual_quat (w0 :: tws) (k0 :: tids) =
      (vec_at dual_quat k0).bind fun P =>
        (tids.zip tws).foldlM (fl_pair_step rnd dual_quat P.rotation) (P.fl_scale rnd w0) := by
  rw [fl_blend_vertex_cons]
  simp only [List.getElem?_cons_zero, Option.some_bind]
  cases vec_at dual_quat k0 with
  | none => rfl
  | some P =>
    simp only [Option.some_bind]
    exact fl_foldlM_blend_step_eq rnd dual_quat P.rotation tids tws [k0] [w0] _ rfl hlen

theorem least32_pos : 0 < least32 := by
  unfold least32
  positivity

theorem round32_half_least32 : round32 (1 / 2 * least32) = 0 := round32_half_least

theorem example_run_c_exact :
    fl_exact_run round32 [Dual_quat_cu.identity, half_turn ⟨1, 0, 0⟩] (1 / 2 :: [1 / 4])
      (0 :: [1]) [(1 / 4 : ℚ)].length := by
  have hr : List.range' 1 [(1 / 4 : ℚ)].length = [1] := rfl
  refine fl_exact_run_of round32 _ _ _ _ 0 (1 / 2) Dual_quat_cu.identity (by simp) (by simp)
    (by simp [vec_at]) ?_ ?_
  · norm_num [Dual_quat_cu.fl_scale, Dual_quat_cu.fl_map, Quat_cu.fl_map,
      Dual_quat_cu.scale_def, Dual_quat_cu.identity, round32_zero, round32_inv_two, round32_half]
  · rw [hr]
    refine fl_exact_steps_cons round32 _ _ _ _ _ ⟨⟨1 / 2, 1 / 4, 0, 0⟩, ⟨0, 0, 0, 0⟩⟩ _ _ ?_ ?_
      True.intro
    · norm_num [blend_step, resolve_joint, vec_at, signed_weight_eq, half_turn,
        Dual_quat_cu.identity, Dual_quat_cu.rotation, Quat_cu.dot, Dual_quat_cu.add_def,
        Dual_quat_cu.scale_def]
    · norm_num [fl_blend_step, resolve_joint, vec_at, fl_signed_weight, fl_hemisphere_flip,
        Quat_cu.fl_dot, half_turn, Dual_quat_cu.identity, Dual_quat_cu.rotation,
        Dual_quat_cu.fl_scale, Dual_quat_cu.fl_add, Dual_quat_cu.fl_map, Quat_cu.fl_map,
        Dual_quat_cu.add_def, Dual_quat_cu.scale_def, round32_zero, round32_one,
        round32_inv_two, round32_inv_four, round32_inv_eight, round32_five_eighths,
        round32_half, round32_quarter, round32_eighth]

/-- C5, amended. Two joints holding the same transform `T`, both with the same
non-zero weight `w`, when the seed `T * w` and the one iteration of the loop are
free of rounding error: the blend is `T * (w + w)` and the outputs are
`T.transform(in_verts[v])` and `T.rotate(in_normals[v])`. -/
theorem two_joint_identical_blend_no_rounding (rnd : ℚ → ℚ) (dual_quat : List Dual_quat_cu)
    (a b : Int) (T : Dual_quat_cu) (w : ℚ) (p : Point3) (n : Vec3)
    (ha : vec_at dual_quat a = some T) (hb : vec_at dual_quat b = some T) (hw : w ≠ 0)
    (hex : fl_exact_run rnd dual_quat [w, w] [a, b] 1) :
    fl_blend_vertex rnd dual_quat [w, w] [a, b] = some (T * (w + w)) ∧
    fl_deform_vertex rnd dual_quat [w, w] [a, b] p n =
      some ((T.transform p).map Point3.to_vec3, T.rotate n) := by
  have hfl : fl_blend_vertex rnd dual_quat [w, w] [a, b] = blend_vertex dual_quat [w, w] [a, b] :=
    fl_blend_vertex_of_exact rnd dual_quat [w, w] [a, b] hex
  obtain ⟨h1, h2⟩ := two_joint_identical_blend_exact dual_quat a b T w p n ha hb hw
  refine ⟨hfl.trans h1, ?_⟩
  rw [fl_deform_vertex, hfl, ← h2, deform_vertex]

theorem example_run_e_exact :
    fl_exact_run round32 [half_turn ⟨1, 0, 0⟩, half_turn ⟨1, 0, 0⟩]
      [1 / 4, 1 / 4] [0, 1] 1 := by
  have hr : List.range' 1 1 = [1] := rfl
  refine fl_exact_run_of round32 _ _ _ _ 0 (1 / 4) (half_turn ⟨1, 0, 0⟩) (by simp) (by simp)
    (by simp [vec_at]) ?_ ?_
  · norm_num [Dual_quat_cu.fl_scale, Dual_quat_cu.fl_map, Quat_cu.fl_map,
      Dual_quat_cu.scale_def, half_turn, round32_zero, round32_inv_four, round32_quarter]
  · rw [hr]
    refine fl_exact_steps_cons round32 _ _ _ _ _ ⟨⟨0, 1 / 2, 0, 0⟩, ⟨0, 0, 0, 0⟩⟩ _ _ ?_ ?_
      True.intro
    · norm_num [blend_step, resolve_joint, vec_at, signed_weight_eq, half_turn,
        Dual_quat_cu.identity, Dual_quat_cu.rotation, Quat_cu.dot, Dual_quat_cu.add_def,
        Dual_quat_cu.scale_def]
    · norm_num [fl_blend_step, resolve_joint, vec_at, fl_signed_weight, fl_hemisphere_flip,
        Quat_cu.fl_dot, half_turn, Dual_quat_cu.identity, Dual_quat_cu.rotation,
        Dual_quat_cu.fl_scale, Dual_quat_cu.fl_add, Dual_quat_cu.fl_map, Quat_cu.fl_map,
        Dual_quat_cu.add_def, Dual_quat_cu.scale_def, round32_zero, round32_one,
        round32_inv_two, round32_inv_four, round32_inv_eight, round32_five_eighths,
        round32_half, round32_quarter, round32_eighth]

theorem two_joint_identical_blend_no_rounding_witness :
    vec_at [half_turn ⟨1, 0, 0⟩, half_turn ⟨1, 0, 0⟩] 0 = some (half_turn ⟨1, 0, 0⟩) ∧
    vec_at [half_turn ⟨1, 0, 0⟩, half_turn ⟨1, 0, 0⟩] 1 = some (half_turn ⟨1, 0, 0⟩) ∧
    ((1 / 4 : ℚ)) ≠ 0 ∧
    fl_exact_run round32 [half_turn ⟨1, 0, 0⟩, half_turn ⟨1, 0, 0⟩]
      [1 / 4, 1 / 4] [0, 1] 1 ∧
    (fl_blend_vertex round32 [half_turn ⟨1, 0, 0⟩, half_turn ⟨1, 0, 0⟩]
        [1 / 4, 1 / 4] [0, 1] = some (half_turn ⟨1, 0, 0⟩ * ((1 / 4 : ℚ) + 1 / 4)) ∧
      fl_deform_vertex round32
        [half_turn ⟨1, 0, 0⟩, half_turn ⟨1, 0, 0⟩]
        [1 / 4, 1 / 4] [0, 1] ⟨1, 2, 3⟩ ⟨0, 1, 0⟩ =
        some (((half_turn ⟨1, 0, 0⟩).transform ⟨1, 2, 3⟩).map Point3.to_vec3,
              (half_turn ⟨1, 0, 0⟩).rotate ⟨0, 1, 0⟩)) :=
  ⟨by simp [vec_at], by simp [vec_at], by norm_num, example_run_e_exact,
    two_joint_identical_blend_no_rounding round32 _ 0 1 _ (1 / 4) ⟨1, 2, 3⟩ ⟨0, 1, 0⟩
      (by simp [vec_at]) (by simp [vec_at]) (by norm_num) example_run_e_exact⟩

/-! ## Changing the pivot -/

theorem apply_blend_flip_sign (f : Bool) (X : Dual_quat_cu) (p : Point3) (n : Vec3) :
    apply_blend (flip_sign f X) p n = apply_blend X p n := by
  cases f
  · rfl
  · exact apply_blend_neg X p n

theorem fl_signed_weight_of_flip_eq (rnd : ℚ → ℚ) (d : Dual_quat_cu) (qA qB : Quat_cu) (w : ℚ)
    (h : fl_hemisphere_flip rnd d qB = fl_hemisphere_flip rnd d qA) :
    fl_signed_weight rnd d qB w = fl_signed_weight rnd d qA w := by
  simp only [fl_signed_weight, h]

theorem fl_signed_weight_of_flip_ne (rnd : ℚ → ℚ) (d : Dual_quat_cu) (qA qB : Quat_cu) (w : ℚ)
    (h : fl_hemisphere_flip rnd d qB = !fl_hemisphere_flip rnd d qA) :
    fl_signed_weight rnd d qB w = -(fl_signed_weight rnd d qA w) := by
  simp only [fl_signed_weight, h]
  cases fl_hemisphere_flip rnd d qA <;> simp

/-- The later iterations against a second pivot rotation that flips the same
influences: the running blend is the same. -/
theorem fl_foldlM_same_flips (rnd : ℚ → ℚ) (dual_quat : List Dual_quat_cu) (qA qB : Quat_cu)
    (l : List (Int × ℚ))
    (h : ∀ kw ∈ l, ∀ d, resolve_joint dual_quat kw.1 = some d →
      fl_hemisphere_flip rnd d qB = fl_hemisphere_flip rnd d qA) :
    ∀ acc : Dual_quat_cu,
      l.foldlM (fl_pair_step rnd dual_quat qB) acc =
        l.foldlM (fl_pair_step rnd dual_quat qA) acc := by
  induction l with
  | nil => intro acc; simp only [List.foldlM_nil]
  | cons kw rest ih =>
    intro acc
    have hstep : fl_pair_step rnd dual_quat qB acc kw = fl_pair_step rnd dual_quat qA acc kw := by
      unfold fl_pair_step
      cases hd : resolve_joint dual_quat kw.1 with
      | none => simp only [Option.map_none']
      | some d =>
        rw [Option.map_some', Option.map_some',
          fl_signed_weight_of_flip_eq rnd d qA qB kw.2 (h kw (List.mem_cons_self _ _) d hd)]
    simp only [List.foldlM_cons, hstep]
    cases fl_pair_step rnd dual_quat qA acc kw with
    | none => simp only [Option.bind_eq_bind, Option.none_bind]
    | some a =>
      simp only [Option.bind_eq_bind, Option.some_bind]
      exact ih (fun kw2 hkw2 => h kw2 (List.mem_cons_of_mem _ hkw2)) a

/-- The later iterations against a second pivot rotation that flips exactly the
other influences, started from the negated blend: the running blend is
negated. -/
theorem fl_foldlM_opposite_flips (rnd : ℚ → ℚ) (hsym : ∀ x, rnd (-x) = -rnd x)
    (dual_quat : List Dual_quat_cu) (qA qB : Quat_cu) (l : List (Int × ℚ))
    (h : ∀ kw ∈ l, ∀ d, resolve_joint dual_quat kw.1 = some d →
      fl_hemisphere_flip rnd d qB = !fl_hemisphere_flip rnd d qA) :
    ∀ acc : Dual_quat_cu,
      l.foldlM (fl_pair_step rnd dual_quat qB) (-acc) =
        (l.foldlM (fl_pair_step rnd dual_quat qA) acc).map (fun b => -b) := by
  induction l with
  | nil => intro acc; simp only [List.foldlM_nil, Option.pure_def, Option.map_some']
  | cons kw rest ih =>
    intro acc
    have hstep : fl_pair_step rnd dual_quat qB (-acc) kw
        = (fl_pair_step rnd dual_quat qA acc kw).map (fun b => -b) := by
      unfold fl_pair_step
      cases hd : resolve_joint dual_quat kw.1 with
      | none => simp only [Option.map_none']
      | some d =>
        rw [Option.map_some', Option.map_some', Option.map_some',
          fl_signed_weight_of_flip_ne rnd d qA qB kw.2 (h kw (List.mem_cons_self _ _) d hd),
          Dual_quat_cu.fl_scale_neg_weight rnd hsym, Dual_quat_cu.fl_add_neg rnd hsym]
    simp only [List.foldlM_cons, hstep]
    cases fl_pair_step rnd dual_quat qA acc kw with
    | none => simp only [Option.map_none', Option.bind_eq_bind, Option.none_bind]
    | some a =>
      simp only [Option.map_some', Option.bind_eq_bind, Option.some_bind]
      exact ih (fun kw2 hkw2 => h kw2 (List.mem_cons_of_mem _ hkw2)) a

/-- The later iterations against a second pivot rotation whose flips are those
of the first one, all kept or all exchanged according to a flag: the running
blend is kept or negated according to the flag. -/
theorem fl_foldlM_consistent_flips (rnd : ℚ → ℚ) (hsym : ∀ x, rnd (-x) = -rnd x)
    (dual_quat : List Dual_quat_cu) (qA qB : Quat_cu) (f : Bool) (l : List (Int × ℚ))
    (h : ∀ kw ∈ l, ∀ d, resolve_joint dual_quat kw.1 = some d →
      fl_hemisphere_flip rnd d qB = xor (fl_hemisphere_flip rnd d qA) f)
    (acc : Dual_quat_cu) :
    l.foldlM (fl_pair_step rnd dual_quat qB) (flip_sign f acc) =
      (l.foldlM (fl_pair_step rnd dual_quat qA) acc).map (flip_sign f) := by
  cases f
  · have h2 : ∀ kw ∈ l, ∀ d, resolve_joint dual_quat kw.1 = some d →
        fl_hemisphere_flip rnd d qB = fl_hemisphere_flip rnd d qA := by
      intro kw hkw d hd
      simpa using h kw hkw d hd
    have e : (flip_sign false : Dual_quat_cu → Dual_quat_cu) = id := by
      funext X
      rfl
    rw [e, Option.map_id, id]
    exact fl_foldlM_same_flips rnd dual_quat qA qB l h2 acc
  · have h2 : ∀ kw ∈ l, ∀ d, resolve_joint dual_quat kw.1 = some d →
        fl_hemisphere_flip rnd d qB = !fl_hemisphere_flip rnd d qA := by
      intro kw hkw d hd
      simpa using h kw hkw d hd
    exact fl_foldlM_opposite_flips rnd hsym dual_quat qA qB l h2 acc

theorem fl_pair_step_id (dual_quat : List Dual_quat_cu) (q0 : Quat_cu) :
    fl_pair_step (fun x => x) dual_quat q0 = pair_step dual_quat q0 := rfl

theorem fl_hemisphere_flip_id (d : Dual_quat_cu) (q0 : Quat_cu) :
    fl_hemisphere_flip (fun x => x) d q0 = hemisphere_flip d q0 := rfl

theorem fl_hemisphere_flip_comm (rnd : ℚ → ℚ) (A B : Dual_quat_cu) :
    fl_hemisphere_flip rnd A B.rotation = fl_hemisphere_flip rnd B A.rotation := by
  simp only [fl_hemisphere_flip, Quat_cu.fl_dot_comm rnd A.rotation B.rotation]

theorem flip_sign_zero (f : Bool) : flip_sign f 0 = 0 := by
  cases f
  · rfl
  · simp only [flip_sign, if_true, Dual_quat_cu.neg_def, Dual_quat_cu.zero_def, neg_zero]

/-- The first iteration after the first two influences were swapped: the
running blend is the one of the original order, negated when the two joints are
in opposite hemispheres. -/
theorem fl_first_step_swapped (rnd : ℚ → ℚ) (hsym : ∀ x, rnd (-x) = -rnd x)
    (A B : Dual_quat_cu) (wa wb : ℚ) :
    (B.fl_scale rnd wb).fl_add rnd (A.fl_scale rnd (fl_signed_weight rnd A B.rotation wa)) =
      flip_sign (fl_hemisphere_flip rnd B A.rotation)
        ((A.fl_scale rnd wa).fl_add rnd
          (B.fl_scale rnd (fl_signed_weight rnd B A.rotation wb))) := by
  simp only [fl_signed_weight, fl_hemisphere_flip_comm rnd A B]
  cases fl_hemisphere_flip rnd B A.rotation
  · simp only [flip_sign, Bool.false_eq_true, if_false]
    exact Dual_quat_cu.fl_add_comm rnd _ _
  · simp only [flip_sign, if_true, mul_neg, mul_one,
      Dual_quat_cu.fl_scale_neg_weight rnd hsym]
    rw [← Dual_quat_cu.fl_add_neg rnd hsym, Dual_quat_cu.neg_neg]
    exact Dual_quat_cu.fl_add_comm rnd _ _

/-- Swapping the first two influences, under a rounding symmetric in the sign
and with consistent flips of the later influences, keeps or negates the
blend. -/
theorem fl_blend_swap_first_two (rnd : ℚ → ℚ) (hsym : ∀ x, rnd (-x) = -rnd x)
    (dual_quat : List Dual_quat_cu) (a b : Int) (wa wb : ℚ) (rids : List Int) (rws : List ℚ)
    (A B : Dual_quat_cu) (hA : vec_at dual_quat a = some A) (hB : vec_at dual_quat b = some B)
    (hlen : rids.length = rws.length)
    (hcons : ∀ kw ∈ rids.zip rws, ∀ d, resolve_joint dual_quat kw.1 = some d →
      fl_hemisphere_flip rnd d B.rotation =
        xor (fl_hemisphere_flip rnd d A.rotation) (fl_hemisphere_flip rnd B A.rotation)) :
    fl_blend_vertex rnd dual_quat (wb :: wa :: rws) (b :: a :: rids) =
      (fl_blend_vertex rnd dual_quat (wa :: wb :: rws) (a :: b :: rids)).map
        (flip_sign (fl_hemisphere_flip rnd B A.rotation)) := by
  have hl : (a :: rids).length = (wa :: rws).length := by simp [hlen]
  have hl2 : (b :: rids).length = (wb :: rws).length := by simp [hlen]
  rw [fl_blend_vertex_pairs rnd dual_quat wb (wa :: rws) b (a :: rids) hl,
    fl_blend_vertex_pairs rnd dual_quat wa (wb :: rws) a (b :: rids) hl2, hA, hB]
  simp only [Option.some_bind, List.zip_cons_cons, List.foldlM_cons, fl_pair_step,
    resolve_joint_of_vec_at _ _ _ hA, resolve_joint_of_vec_at _ _ _ hB, Option.map_some',
    Option.bind_eq_bind]
  rw [fl_first_step_swapped rnd hsym A B wa wb]
  exact fl_foldlM_consistent_flips rnd hsym dual_quat A.rotation B.rotation _ _ hcons _

/-- In exact arithmetic a permutation of the influence list that makes joint
`b` the pivot instead of joint `a`, with consistent flips, keeps or negates the
blend. -/
theorem blend_perm_consistent_exact (dual_quat : List Dual_quat_cu) (ws ws2 : List ℚ)
    (ids ids2 : List Int) (a b : Int) (A B : Dual_quat_cu)
    (hlen : ids.length = ws.length) (hlen2 : ids2.length = ws2.length)
    (hperm : (ids.zip ws).Perm (ids2.zip ws2))
    (ha : ids[0]? = some a) (hb : ids2[0]? = some b)
    (hA : vec_at dual_quat a = some A) (hB : vec_at dual_quat b = some B)
    (hcons : ∀ kw ∈ ids.zip ws, ∀ d, resolve_joint dual_quat kw.1 = some d →
      hemisphere_flip d B.rotation =
        xor (hemisphere_flip d A.rotation) (hemisphere_flip B A.rotation)) :
    blend_vertex dual_quat ws2 ids2 =
      (blend_vertex dual_quat ws ids).map (flip_sign (hemisphere_flip B A.rotation)) := by
  cases ids with
  | nil => simp at ha
  | cons a2 tids =>
    cases ws with
    | nil => exact absurd hlen (by simp)
    | cons wa tws =>
      cases ids2 with
      | nil => simp at hb
      | cons b2 tids2 =>
        cases ws2 with
        | nil => exact absurd hlen2 (by simp)
        | cons wb tws2 =>
          have e1 : a2 = a := by simpa using ha
          have e2 : b2 = b := by simpa using hb
          subst e1
          subst e2
          rw [blend_vertex_from_zero dual_quat wb tws2 b2 tids2 (by simpa using hlen2),
            blend_vertex_from_zero dual_quat wa tws a2 tids (by simpa using hlen), hA, hB,
            Option.some_bind, Option.some_bind,
            ← foldlM_pair_step_perm dual_quat B.rotation _ _ hperm 0]
          have h := fl_foldlM_consistent_flips (fun x => x) (fun _ => rfl) dual_quat A.rotation
            B.rotation (hemisphere_flip B A.rotation) ((a2 :: tids).zip (wa :: tws)) hcons 0
          rw [flip_sign_zero, fl_pair_step_id, fl_pair_step_id] at h
          exact h

theorem example_run_f_exact :
    fl_exact_run round32 [Dual_quat_cu.identity, half_turn ⟨1, 0, 0⟩] (1 / 4 :: [1 / 2])
      (1 :: [0]) [(1 / 2 : ℚ)].length := by
  have hr : List.range' 1 [(1 / 2 : ℚ)].length = [1] := rfl
  refine fl_exact_run_of round32 _ _ _ _ 1 (1 / 4) (half_turn ⟨1, 0, 0⟩) (by simp) (by simp)
    (by simp [vec_at]) ?_ ?_
  · norm_num [Dual_quat_cu.fl_scale, Dual_quat_cu.fl_map, Quat_cu.fl_map,
      Dual_quat_cu.scale_def, half_turn, round32_zero, round32_inv_four, round32_quarter]
  · rw [hr]
    refine fl_exact_steps_cons round32 _ _ _ _ _ ⟨⟨1 / 2, 1 / 4, 0, 0⟩, ⟨0, 0, 0, 0⟩⟩ _ _ ?_ ?_
      True.intro
    · norm_num [blend_step, resolve_joint, vec_at, signed_weight_eq, half_turn,
        Dual_quat_cu.identity, Dual_quat_cu.rotation, Quat_cu.dot, Dual_quat_cu.add_def,
        Dual_quat_cu.scale_def]
    · norm_num [fl_blend_step, resolve_joint, vec_at, fl_signed_weight, fl_hemisphere_flip,
        Quat_cu.fl_dot, Dual_quat_cu.fl_add, Dual_quat_cu.fl_scale, Dual_quat_cu.fl_map,
        Quat_cu.fl_map, half_turn, Dual_quat_cu.identity, Dual_quat_cu.rotation,
        Dual_quat_cu.add_def, Dual_quat_cu.scale_def, round32_zero, round32_one,
        round32_inv_two, round32_half, round32_inv_four, round32_quarter]

/-- C2, amended. Two cases in which a permutation of the influence list that
changes the pivot leaves both outputs of the vertex unchanged; `rnd` is the
rounding of every stored product and sum.

First, for a rounding symmetric in the sign (as round-to-nearest is), swapping
the first two influences `(a, wa)` and `(b, wb)`: when every later influence is
flipped against the new pivot `b` exactly when it is flipped against the old
pivot `a`, exclusive-or the two pivots being in opposite hemispheres, the blend
of the swapped list is the blend of the original list, negated when the two
pivots are in opposite hemispheres, and both outputs are equal. With two
influences only there is no later influence and the condition is empty.

Second, for any permutation (joint id and weight permuted together) that puts
joint `b` at index 0 in place of joint `a`: when `b = a`, or the flips of all
influences are consistent in the same sense with exact dot products, and both
runs are free of rounding error, the same conclusion holds. -/
theorem order_independence_amended (rnd : ℚ → ℚ) (dual_quat : List Dual_quat_cu)
    (p : Point3) (n : Vec3) :
    (∀ (a b : Int) (wa wb : ℚ) (rids : List Int) (rws : List ℚ) (A B : Dual_quat_cu),
      (∀ x, rnd (-x) = -rnd x) →
      vec_at dual_quat a = some A → vec_at dual_quat b = some B →
      rids.length = rws.length →
      (∀ kw ∈ rids.zip rws, ∀ d, resolve_joint dual_quat kw.1 = some d →
        fl_hemisphere_flip rnd d B.rotation =
          xor (fl_hemisphere_flip rnd d A.rotation) (fl_hemisphere_flip rnd B A.rotation)) →
      fl_blend_vertex rnd dual_quat (wb :: wa :: rws) (b :: a :: rids) =
        (fl_blend_vertex rnd dual_quat (wa :: wb :: rws) (a :: b :: rids)).map
          (flip_sign (fl_hemisphere_flip rnd B A.rotation)) ∧
      fl_deform_vertex rnd dual_quat (wb :: wa :: rws) (b :: a :: rids) p n =
        fl_deform_vertex rnd dual_quat (wa :: wb :: rws) (a :: b :: rids) p n) ∧
    (∀ (ws ws2 : List ℚ) (ids ids2 : List Int) (a b : Int) (A B : Dual_quat_cu),
      ids.length = ws.length → ids2.length = ws2.length →
      (ids.zip ws).Perm (ids2.zip ws2) →
      ids[0]? = some a → ids2[0]? = some b →
      vec_at dual_quat a = some A → vec_at dual_quat b = some B →
      (a ≠ b → ∀ kw ∈ ids.zip ws, ∀ d, resolve_joint dual_quat kw.1 = some d →
        hemisphere_flip d B.rotation =
          xor (hemisphere_flip d A.rotation) (hemisphere_flip B A.rotation)) →
      fl_exact_run rnd dual_quat ws ids (ws.length - 1) →
      fl_exact_run rnd dual_quat ws2 ids2 (ws2.length - 1) →
      fl_blend_vertex rnd dual_quat ws2 ids2 =
        (fl_blend_vertex rnd dual_quat ws ids).map
          (flip_sign (hemisphere_flip B A.rotation)) ∧
      fl_deform_vertex rnd dual_quat ws2 ids2 p n =
        fl_deform_vertex rnd dual_quat ws ids p n) := by
  constructor
  · intro a b wa wb rids rws A B hsym hA hB hlen hcons
    have hb := fl_blend_swap_first_two rnd hsym dual_quat a b wa wb rids rws A B hA hB hlen hcons
    refine ⟨hb, ?_⟩
    simp only [fl_deform_vertex, hb, Option.map_map]
    congr 1
    funext X
    exact apply_blend_flip_sign _ X p n
  · intro ws ws2 ids ids2 a b A B hlen hlen2 hperm ha hb hA hB hcons hex hex2
    have hcons2 : ∀ kw ∈ ids.zip ws, ∀ d, resolve_joint dual_quat kw.1 = some d →
        hemisphere_flip d B.rotation =
          xor (hemisphere_flip d A.rotation) (hemisphere_flip B A.rotation) := by
      by_cases hab : a = b
      · subst hab
        have hAB : A = B := Option.some.inj (hA.symm.trans hB)
        subst hAB
        intro kw _ d _
        have hs : hemisphere_flip A A.rotation = false := by
          simp only [hemisphere_flip, decide_eq_false_iff_not, not_lt]
          exact Quat_cu.dot_self_nonneg _
        rw [hs, Bool.xor_false]
      · exact hcons hab
    have h := blend_perm_consistent_exact dual_quat ws ws2 ids ids2 a b A B hlen hlen2 hperm
      ha hb hA hB hcons2
    have hbl : fl_blend_vertex rnd dual_quat ws2 ids2 =
        (fl_blend_vertex rnd dual_quat ws ids).map
          (flip_sign (hemisphere_flip B A.rotation)) := by
      rw [fl_blend_vertex_of_exact rnd dual_quat ws2 ids2 hex2,
        fl_blend_vertex_of_exact rnd dual_quat ws ids hex, h]
    refine ⟨hbl, ?_⟩
    simp only [fl_deform_vertex, hbl, Option.map_map]
    congr 1
    funext X
    exact apply_blend_flip_sign _ X p n

theorem order_independence_amended_witness :
    ((∀ x, round32 (-x) = -round32 x) ∧
      vec_at [Dual_quat_cu.identity, -Dual_quat_cu.identity] 0 = some Dual_quat_cu.identity ∧
      vec_at [Dual_quat_cu.identity, -Dual_quat_cu.identity] 1
        = some (-Dual_quat_cu.identity) ∧
      [(0 : Int)].length = [(1 / 4 : ℚ)].length ∧
      (∀ kw ∈ [(0 : Int)].zip [(1 / 4 : ℚ)], ∀ d,
        resolve_joint [Dual_quat_cu.identity, -Dual_quat_cu.identity] kw.1 = some d →
        fl_hemisphere_flip round32 d (-Dual_quat_cu.identity).rotation =
          xor (fl_hemisphere_flip round32 d Dual_quat_cu.identity.rotation)
            (fl_hemisphere_flip round32 (-Dual_quat_cu.identity)
              Dual_quat_cu.identity.rotation)) ∧
      fl_hemisphere_flip round32 (-Dual_quat_cu.identity) Dual_quat_cu.identity.rotation
        = true ∧
      (fl_blend_vertex round32 [Dual_quat_cu.identity, -Dual_quat_cu.identity]
          (1 / 4 :: 1 / 2 :: [1 / 4]) (1 :: 0 :: [0]) =
        (fl_blend_vertex round32 [Dual_quat_cu.identity, -Dual_quat_cu.identity]
          (1 / 2 :: 1 / 4 :: [1 / 4]) (0 :: 1 :: [0])).map
          (flip_sign (fl_hemisphere_flip round32 (-Dual_quat_cu.identity)
            Dual_quat_cu.identity.rotation)) ∧
        fl_deform_vertex round32 [Dual_quat_cu.identity, -Dual_quat_cu.identity]
            (1 / 4 :: 1 / 2 :: [1 / 4]) (1 :: 0 :: [0]) ⟨1, 2, 3⟩ ⟨0, 1, 0⟩ =
          fl_deform_vertex round32 [Dual_quat_cu.identity, -Dual_quat_cu.identity]
            (1 / 2 :: 1 / 4 :: [1 / 4]) (0 :: 1 :: [0]) ⟨1, 2, 3⟩ ⟨0, 1, 0⟩)) ∧
    ([(0 : Int), 1].length = [(1 / 2 : ℚ), 1 / 4].length ∧
      [(1 : Int), 0].length = [(1 / 4 : ℚ), 1 / 2].length ∧
      ([(0 : Int), 1].zip [(1 / 2 : ℚ), 1 / 4]).Perm ([(1 : Int), 0].zip [(1 / 4 : ℚ), 1 / 2]) ∧
      [(0 : Int), 1][0]? = some 0 ∧ [(1 : Int), 0][0]? = some 1 ∧
      vec_at [Dual_quat_cu.identity, half_turn ⟨1, 0, 0⟩] 0 = some Dual_quat_cu.identity ∧
      vec_at [Dual_quat_cu.identity, half_turn ⟨1, 0, 0⟩] 1 = some (half_turn ⟨1, 0, 0⟩) ∧
      (∀ kw ∈ [(0 : Int), 1].zip [(1 / 2 : ℚ), 1 / 4], ∀ d,
        resolve_joint [Dual_quat_cu.identity, half_turn ⟨1, 0, 0⟩] kw.1 = some d →
        hemisphere_flip d (half_turn ⟨1, 0, 0⟩).rotation =
          xor (hemisphere_flip d Dual_quat_cu.identity.rotation)
            (hemisphere_flip (half_turn ⟨1, 0, 0⟩) Dual_quat_cu.identity.rotation)) ∧
      fl_exact_run round32 [Dual_quat_cu.identity, half_turn ⟨1, 0, 0⟩] [1 / 2, 1 / 4] [0, 1]
        ([(1 / 2 : ℚ), 1 / 4].length - 1) ∧
      fl_exact_run round32 [Dual_quat_cu.identity, half_turn ⟨1, 0, 0⟩] [1 / 4, 1 / 2] [1, 0]
        ([(1 / 4 : ℚ), 1 / 2].length - 1) ∧
      (fl_blend_vertex round32 [Dual_quat_cu.identity, half_turn ⟨1, 0, 0⟩] [1 / 4, 1 / 2]
          [1, 0] =
        (fl_blend_vertex round32 [Dual_quat_cu.identity, half_turn ⟨1, 0, 0⟩] [1 / 2, 1 / 4]
          [0, 1]).map
          (flip_sign (hemisphere_flip (half_turn ⟨1, 0, 0⟩) Dual_quat_cu.identity.rotation)) ∧
        fl_deform_vertex round32 [Dual_quat_cu.identity, half_turn ⟨1, 0, 0⟩] [1 / 4, 1 / 2]
            [1, 0] ⟨1, 2, 3⟩ ⟨0, 1, 0⟩ =
          fl_deform_vertex round32 [Dual_quat_cu.identity, half_turn ⟨1, 0, 0⟩] [1 / 2, 1 / 4]
            [0, 1] ⟨1, 2, 3⟩ ⟨0, 1, 0⟩)) := by
  have hflip : fl_hemisphere_flip round32 (-Dual_quat_cu.identity)
      Dual_quat_cu.identity.rotation = true := by
    norm_num [fl_hemisphere_flip, Quat_cu.fl_dot, Dual_quat_cu.identity,
      Dual_quat_cu.rotation, Dual_quat_cu.neg_def, round32_neg, round32_one, round32_zero]
  have hc1 : ∀ kw ∈ [(0 : Int)].zip [(1 / 4 : ℚ)], ∀ d,
      resolve_joint [Dual_quat_cu.identity, -Dual_quat_cu.identity] kw.1 = some d →
      fl_hemisphere_flip round32 d (-Dual_quat_cu.identity).rotation =
        xor (fl_hemisphere_flip round32 d Dual_quat_cu.identity.rotation)
          (fl_hemisphere_flip round32 (-Dual_quat_cu.identity)
            Dual_quat_cu.identity.rotation) := by
    intro kw hkw d hd
    simp only [List.zip_cons_cons, List.zip_nil_right, List.mem_singleton] at hkw
    subst hkw
    simp [resolve_joint, vec_at] at hd
    subst hd
    rw [hflip]
    norm_num [fl_hemisphere_flip, Quat_cu.fl_dot, Dual_quat_cu.identity,
      Dual_quat_cu.rotation, Dual_quat_cu.neg_def, round32_neg, round32_one, round32_zero]
  have hc2 : ∀ kw ∈ [(0 : Int), 1].zip [(1 / 2 : ℚ), 1 / 4], ∀ d,
      resolve_joint [Dual_quat_cu.identity, half_turn ⟨1, 0, 0⟩] kw.1 = some d →
      hemisphere_flip d (half_turn ⟨1, 0, 0⟩).rotation =
        xor (hemisphere_flip d Dual_quat_cu.identity.rotation)
          (hemisphere_flip (half_turn ⟨1, 0, 0⟩) Dual_quat_cu.identity.rotation) := by
    intro kw hkw d hd
    simp only [List.zip_cons_cons, List.zip_nil_right, List.mem_cons, List.mem_singleton,
      List.not_mem_nil, or_false] at hkw
    rcases hkw with h | h
    · subst h
      simp [resolve_joint, vec_at] at hd
      subst hd
      norm_num [hemisphere_flip, Quat_cu.dot, Dual_quat_cu.identity, Dual_quat_cu.rotation,
        half_turn]
    · subst h
      simp [resolve_joint, vec_at] at hd
      subst hd
      norm_num [hemisphere_flip, Quat_cu.dot, Dual_quat_cu.identity, Dual_quat_cu.rotation,
        half_turn]
  exact ⟨⟨round32_neg, by simp [vec_at], by simp [vec_at], rfl, hc1, hflip,
      (order_independence_amended round32 [Dual_quat_cu.identity, -Dual_quat_cu.identity]
        ⟨1, 2, 3⟩ ⟨0, 1, 0⟩).1 0 1 (1 / 2) (1 / 4) [0] [1 / 4] Dual_quat_cu.identity
        (-Dual_quat_cu.identity) round32_neg (by simp [vec_at]) (by simp [vec_at]) rfl hc1⟩,
    ⟨rfl, rfl, List.Perm.swap _ _ _, rfl, rfl, by simp [vec_at], by simp [vec_at], hc2,
      example_run_c_exact, example_run_f_exact,
      (order_independence_amended round32 [Dual_quat_cu.identity, half_turn ⟨1, 0, 0⟩]
        ⟨1, 2, 3⟩ ⟨0, 1, 0⟩).2 [1 / 2, 1 / 4] [1 / 4, 1 / 2] [0, 1] [1, 0] 0 1
        Dual_quat_cu.identity (half_turn ⟨1, 0, 0⟩) rfl rfl (List.Perm.swap _ _ _) rfl rfl
        (by simp [vec_at]) (by simp [vec_at]) (fun _ => hc2) example_run_c_exact
        example_run_f_exact⟩⟩

/-! ## Two joints with the same transform: where the blend degenerates -/

theorem fl_blend_vertex_two_least32 :
    fl_blend_vertex round32
      [⟨⟨1 / 2, 1 / 2, 1 / 2, 1 / 2⟩, ⟨0, 0, 0, 0⟩⟩, ⟨⟨1 / 2, 1 / 2, 1 / 2, 1 / 2⟩, ⟨0, 0, 0, 0⟩⟩]
      [least32, least32] [0, 1] = some ⟨⟨0, 0, 0, 0⟩, ⟨0, 0, 0, 0⟩⟩ := by
  have h := round32_half_least32
  rw [one_div] at h
  have hd : round32 (round32 (round32 (round32 ((2 : ℚ)⁻¹ * 2⁻¹) + round32 (2⁻¹ * 2⁻¹))
      + round32 (2⁻¹ * 2⁻¹)) + round32 (2⁻¹ * 2⁻¹)) = 1 := by
    norm_num [round32_quarter, round32_half, round32_three_quarters, round32_one,
      round32_inv_two, round32_inv_four]
  rw [fl_blend_vertex_pairs round32 _ least32 [least32] 0 [1] rfl]
  simp [vec_at, resolve_joint, fl_pair_step, Dual_quat_cu.fl_scale, Dual_quat_cu.fl_add,
    Dual_quat_cu.fl_map, Quat_cu.fl_map, Dual_quat_cu.scale_def, Dual_quat_cu.add_def,
    fl_signed_weight, fl_hemisphere_flip, Quat_cu.fl_dot, Dual_quat_cu.rotation,
    round32_zero, h, hd]
  norm_num [round32_half_least32, round32_zero]

/-- C5, counterexample. Two inputs. In exact arithmetic: two joints holding the
same half turn `T` about the x axis, both with weight 0; the blend is the zero
dual quaternion, which has no normalisation, so the outputs are undefined and
differ from `T` applied to the inputs. In binary32: two joints holding the
rotation `(1/2, 1/2, 1/2, 1/2)`, both with the non-zero weight `2 ^ (-149)`;
every product `1/2 * 2 ^ (-149)` is stored as 0, the blend is again the zero dual
quaternion and the outputs are undefined. -/
theorem two_joint_identical_blend_fails :
    (deform_vertex [half_turn ⟨1, 0, 0⟩, half_turn ⟨1, 0, 0⟩] [0, 0] [0, 1] ⟨0, 1, 0⟩ ⟨0, 1, 0⟩
      = some (none, none) ∧
    apply_blend (half_turn ⟨1, 0, 0⟩) ⟨0, 1, 0⟩ ⟨0, 1, 0⟩ = (some ⟨0, -1, 0⟩, some ⟨0, -1, 0⟩) ∧
    deform_vertex [half_turn ⟨1, 0, 0⟩, half_turn ⟨1, 0, 0⟩] [0, 0] [0, 1] ⟨0, 1, 0⟩ ⟨0, 1, 0⟩
      ≠ some (((half_turn ⟨1, 0, 0⟩).transform ⟨0, 1, 0⟩).map Point3.to_vec3,
              (half_turn ⟨1, 0, 0⟩).rotate ⟨0, 1, 0⟩)) ∧
    (least32 ≠ 0 ∧
    fl_deform_vertex round32
        [⟨⟨1 / 2, 1 / 2, 1 / 2, 1 / 2⟩, ⟨0, 0, 0, 0⟩⟩, ⟨⟨1 / 2, 1 / 2, 1 / 2, 1 / 2⟩, ⟨0, 0, 0, 0⟩⟩]
        [least32, least32] [0, 1] ⟨0, 1, 0⟩ ⟨0, 1, 0⟩
      = some (none, none) ∧
    apply_blend ⟨⟨1 / 2, 1 / 2, 1 / 2, 1 / 2⟩, ⟨0, 0, 0, 0⟩⟩ ⟨0, 1, 0⟩ ⟨0, 1, 0⟩
      = (some ⟨0, 0, 1⟩, some ⟨0, 0, 1⟩) ∧
    fl_deform_vertex round32
        [⟨⟨1 / 2, 1 / 2, 1 / 2, 1 / 2⟩, ⟨0, 0, 0, 0⟩⟩, ⟨⟨1 / 2, 1 / 2, 1 / 2, 1 / 2⟩, ⟨0, 0, 0, 0⟩⟩]
        [least32, least32] [0, 1] ⟨0, 1, 0⟩ ⟨0, 1, 0⟩
      ≠ some (((⟨⟨1 / 2, 1 / 2, 1 / 2, 1 / 2⟩, ⟨0, 0, 0, 0⟩⟩ : Dual_quat_cu).transform
                ⟨0, 1, 0⟩).map Point3.to_vec3,
              (⟨⟨1 / 2, 1 / 2, 1 / 2, 1 / 2⟩, ⟨0, 0, 0, 0⟩⟩ : Dual_quat_cu).rotate ⟨0, 1, 0⟩)) := by
  have h1 : deform_vertex [half_turn ⟨1, 0, 0⟩, half_turn ⟨1, 0, 0⟩] [0, 0] [0, 1]
      ⟨0, 1, 0⟩ ⟨0, 1, 0⟩ = some (none, none) := by
    rw [deform_vertex, blend_vertex_two _ 0 0 0 1 (half_turn ⟨1, 0, 0⟩) (half_turn ⟨1, 0, 0⟩)
      (by simp [vec_at]) (by simp [resolve_joint, vec_at]), signed_weight_self]
    norm_num [apply_blend, Dual_quat_cu.transform, Dual_quat_cu.rotate, half_turn,
      Quat_cu.norm_squared, Quat_cu.dot, Dual_quat_cu.add_def, Dual_quat_cu.scale_def]
  have h2 : apply_blend (half_turn ⟨1, 0, 0⟩) ⟨0, 1, 0⟩ ⟨0, 1, 0⟩
      = (some ⟨0, -1, 0⟩, some ⟨0, -1, 0⟩) := by
    norm_num [apply_blend, Dual_quat_cu.transform, Dual_quat_cu.rotate, half_turn,
      Quat_cu.norm_squared, Quat_cu.dot, Quat_cu.rotate_scaled, Quat_cu.get_vec_part, Vec3.add,
      Vec3.sub, Vec3.scale, Vec3.cross, Point3.add_vec, Point3.to_vec3]
  have h4 : fl_deform_vertex round32
      [⟨⟨1 / 2, 1 / 2, 1 / 2, 1 / 2⟩, ⟨0, 0, 0, 0⟩⟩, ⟨⟨1 / 2, 1 / 2, 1 / 2, 1 / 2⟩, ⟨0, 0, 0, 0⟩⟩]
      [least32, least32] [0, 1] ⟨0, 1, 0⟩ ⟨0, 1, 0⟩ = some (none, none) := by
    rw [fl_deform_vertex, fl_blend_vertex_two_least32]
    norm_num [apply_blend, Dual_quat_cu.transform, Dual_quat_cu.rotate,
      Quat_cu.norm_squared, Quat_cu.dot]
  have h5 : apply_blend ⟨⟨1 / 2, 1 / 2, 1 / 2, 1 / 2⟩, ⟨0, 0, 0, 0⟩⟩ ⟨0, 1, 0⟩ ⟨0, 1, 0⟩
      = (some ⟨0, 0, 1⟩, some ⟨0, 0, 1⟩) := by
    norm_num [apply_blend, Dual_quat_cu.transform, Dual_quat_cu.rotate,
      Quat_cu.norm_squared, Quat_cu.dot, Quat_cu.rotate_scaled, Quat_cu.get_vec_part, Vec3.add,
      Vec3.sub, Vec3.scale, Vec3.cross, Point3.add_vec, Point3.to_vec3]
  refine ⟨⟨h1, h2, ?_⟩, ⟨ne_of_gt least32_pos, h4, h5, ?_⟩⟩
  · rw [h1]
    intro h
    have h3 := congrArg (fun o => o.map Prod.snd) h
    simp only [Option.map_some'] at h3
    rw [apply_blend] at h2
    rw [(Prod.mk.inj h2).2] at h3
    exact Option.noConfusion (Option.some.inj h3)
  · rw [h4]
    intro h
    have h3 := congrArg (fun o => o.map Prod.snd) h
    simp only [Option.map_some'] at h3
    rw [apply_blend] at h5
    rw [(Prod.mk.inj h5).2] at h3
    exact Option.noConfusion (Option.some.inj h3)

/-! ## Where the order of the influences changes the outputs -/

/-- C2, counterexample. Two inputs. In exact arithmetic: three joints, the
influence list `[(0, 1/2), (1, 1/4), (2, 1/4)]` and its permutation
`[(1, 1/4), (0, 1/2), (2, 1/4)]`, which moves joint 1 to index 0. Against pivot 0
no influence is flipped and the blend is a multiple of the identity; against
pivot 1 joint 2 is flipped and the blend is a rotation about `(1, 1, 1)`. The
outputs differ. In binary32: one joint, the identity, with the influence list
`[(0, 1), (0, 2 ^ 24), (0, -2 ^ 24)]` and its permutation
`[(0, 2 ^ 24), (0, -2 ^ 24), (0, 1)]`, the pivot joint unchanged. The first order
stores `1 + 2 ^ 24` as `2 ^ 24` and ends with the zero dual quaternion, whose
outputs are undefined; the second ends with the identity and returns the
inputs. -/
theorem order_independence_fails :
    (([(0 : Int), 1, 2].zip [(1 / 2 : ℚ), 1 / 4, 1 / 4]).Perm
      ([(1 : Int), 0, 2].zip [(1 / 4 : ℚ), 1 / 2, 1 / 4]) ∧
    deform_vertex three_joints [1 / 2, 1 / 4, 1 / 4] [0, 1, 2] ⟨1, 0, 0⟩ ⟨1, 0, 0⟩
      = some (some ⟨1, 0, 0⟩, some ⟨1, 0, 0⟩) ∧
    deform_vertex three_joints [1 / 4, 1 / 2, 1 / 4] [1, 0, 2] ⟨1, 0, 0⟩ ⟨1, 0, 0⟩
      = some (some ⟨3 / 7, 6 / 7, -(2 / 7)⟩, some ⟨3 / 7, 6 / 7, -(2 / 7)⟩) ∧
    deform_vertex three_joints [1 / 2, 1 / 4, 1 / 4] [0, 1, 2] ⟨1, 0, 0⟩ ⟨1, 0, 0⟩
      ≠ deform_vertex three_joints [1 / 4, 1 / 2, 1 / 4] [1, 0, 2] ⟨1, 0, 0⟩ ⟨1, 0, 0⟩) ∧
    (([(0 : Int), 0, 0].zip [(1 : ℚ), 16777216, -16777216]).Perm
      ([(0 : Int), 0, 0].zip [(16777216 : ℚ), -16777216, 1]) ∧
    fl_deform_vertex round32 [Dual_quat_cu.identity] [1, 16777216, -16777216] [0, 0, 0]
        ⟨1, 2, 3⟩ ⟨0, 1, 0⟩ = some (none, none) ∧
    fl_deform_vertex round32 [Dual_quat_cu.identity] [16777216, -16777216, 1] [0, 0, 0]
        ⟨1, 2, 3⟩ ⟨0, 1, 0⟩ = some (some ⟨1, 2, 3⟩, some ⟨0, 1, 0⟩) ∧
    fl_deform_vertex round32 [Dual_quat_cu.identity] [1, 16777216, -16777216] [0, 0, 0]
        ⟨1, 2, 3⟩ ⟨0, 1, 0⟩
      ≠ fl_deform_vertex round32 [Dual_quat_cu.identity] [16777216, -16777216, 1] [0, 0, 0]
        ⟨1, 2, 3⟩ ⟨0, 1, 0⟩) := by
  have h1 : deform_vertex three_joints [1 / 2, 1 / 4, 1 / 4] [0, 1, 2] ⟨1, 0, 0⟩ ⟨1, 0, 0⟩
      = some (some ⟨1, 0, 0⟩, some ⟨1, 0, 0⟩) := by
    rw [deform_vertex, blend_vertex_three three_joints _ _ _ 0 1 2 Dual_quat_cu.identity
      ⟨⟨1 / 2, 1 / 2, 1 / 2, 1 / 2⟩, ⟨0, 0, 0, 0⟩⟩
      ⟨⟨1 / 2, -(1 / 2), -(1 / 2), -(1 / 2)⟩, ⟨0, 0, 0, 0⟩⟩
      (by simp [vec_at, three_joints]) (by simp [resolve_joint, vec_at, three_joints])
      (by simp [resolve_joint, vec_at, three_joints])]
    norm_num [signed_weight_eq, apply_blend, Dual_quat_cu.identity, Dual_quat_cu.transform,
      Dual_quat_cu.rotate, Dual_quat_cu.rotation, Quat_cu.dot, Quat_cu.norm_squared,
      Quat_cu.rotate_scaled, Quat_cu.get_vec_part, Vec3.add, Vec3.sub, Vec3.scale, Vec3.cross,
      Point3.to_vec3, Point3.add_vec, Dual_quat_cu.add_def, Dual_quat_cu.scale_def]
  have h2 : deform_vertex three_joints [1 / 4, 1 / 2, 1 / 4] [1, 0, 2] ⟨1, 0, 0⟩ ⟨1, 0, 0⟩
      = some (some ⟨3 / 7, 6 / 7, -(2 / 7)⟩, some ⟨3 / 7, 6 / 7, -(2 / 7)⟩) := by
    rw [deform_vertex, blend_vertex_three three_joints _ _ _ 1 0 2
      ⟨⟨1 / 2, 1 / 2, 1 / 2, 1 / 2⟩, ⟨0, 0, 0, 0⟩⟩ Dual_quat_cu.identity
      ⟨⟨1 / 2, -(1 / 2), -(1 / 2), -(1 / 2)⟩, ⟨0, 0, 0, 0⟩⟩
      (by simp [vec_at, three_joints]) (by simp [resolve_joint, vec_at, three_joints])
      (by simp [resolve_joint, vec_at, three_joints])]
    norm_num [signed_weight_eq, apply_blend, Dual_quat_cu.identity, Dual_quat_cu.transform,
      Dual_quat_cu.rotate, Dual_quat_cu.rotation, Quat_cu.dot, Quat_cu.norm_squared,
      Quat_cu.rotate_scaled, Quat_cu.get_vec_part, Vec3.add, Vec3.sub, Vec3.scale, Vec3.cross,
      Point3.to_vec3, Point3.add_vec, Dual_quat_cu.add_def, Dual_quat_cu.scale_def]
  have hr : List.range' 1 2 = [1, 2] := rfl
  have h3 : fl_deform_vertex round32 [Dual_quat_cu.identity] [1, 16777216, -16777216]
      [0, 0, 0] ⟨1, 2, 3⟩ ⟨0, 1, 0⟩ = some (none, none) := by
    have hb : fl_blend_vertex round32 [Dual_quat_cu.identity] (1 :: [16777216, -16777216])
        (0 :: [0, 0]) = some ⟨⟨0, 0, 0, 0⟩, ⟨0, 0, 0, 0⟩⟩ := by
      rw [fl_blend_vertex_cons]
      simp only [List.length_cons, List.length_nil, hr]
      norm_num [vec_at, fl_blend_step, resolve_joint, fl_signed_weight, fl_hemisphere_flip,
        Quat_cu.fl_dot, Dual_quat_cu.identity, Dual_quat_cu.rotation, Dual_quat_cu.fl_scale,
        Dual_quat_cu.fl_add, Dual_quat_cu.fl_map, Quat_cu.fl_map, Dual_quat_cu.add_def,
        Dual_quat_cu.scale_def, round32_zero, round32_one, round32_neg, round32_two_pow_24,
        round32_two_pow_24_succ, round32_two_pow_24_pred]
    rw [fl_deform_vertex, hb]
    norm_num [apply_blend, Dual_quat_cu.transform, Dual_quat_cu.rotate,
      Quat_cu.norm_squared, Quat_cu.dot]
  have h4 : fl_deform_vertex round32 [Dual_quat_cu.identity] [16777216, -16777216, 1]
      [0, 0, 0] ⟨1, 2, 3⟩ ⟨0, 1, 0⟩ = some (some ⟨1, 2, 3⟩, some ⟨0, 1, 0⟩) := by
    have hb : fl_blend_vertex round32 [Dual_quat_cu.identity] (16777216 :: [-16777216, 1])
        (0 :: [0, 0]) = some ⟨⟨1, 0, 0, 0⟩, ⟨0, 0, 0, 0⟩⟩ := by
      rw [fl_blend_vertex_cons]
      simp only [List.length_cons, List.length_nil, hr]
      norm_num [vec_at, fl_blend_step, resolve_joint, fl_signed_weight, fl_hemisphere_flip,
        Quat_cu.fl_dot, Dual_quat_cu.identity, Dual_quat_cu.rotation, Dual_quat_cu.fl_scale,
        Dual_quat_cu.fl_add, Dual_quat_cu.fl_map, Quat_cu.fl_map, Dual_quat_cu.add_def,
        Dual_quat_cu.scale_def, round32_zero, round32_one, round32_neg, round32_two_pow_24,
        round32_two_pow_24_succ, round32_two_pow_24_pred]
    rw [fl_deform_vertex, hb]
    norm_num [apply_blend, Dual_quat_cu.transform, Dual_quat_cu.rotate,
      Quat_cu.norm_squared, Quat_cu.dot, Quat_cu.rotate_scaled, Quat_cu.get_vec_part, Vec3.add,
      Vec3.sub, Vec3.scale, Vec3.cross, Point3.add_vec, Point3.to_vec3]
  refine ⟨⟨List.Perm.swap _ _ _, h1, h2, ?_⟩,
    ⟨(List.Perm.swap _ _ _).trans (List.Perm.cons _ (List.Perm.swap _ _ _)), h3, h4, ?_⟩⟩
  · rw [h1, h2]
    intro h
    have hx := congrArg (fun v : Vec3 => v.x)
      (Option.some.inj (Prod.mk.inj (Option.some.inj h)).2)
    norm_num at hx
  · rw [h3, h4]
    intro h
    exact Option.noConfusion (Prod.mk.inj (Option.some.inj h)).1

end DualQuatSkinning
